import Mathlib

/-!
# htest: a fluent request builder and response inspector for in-process handlers

A shallow embedding of `htest.go`.  Go strings and byte slices are lists of
bytes, Go maps with string keys are key-unique association lists, and the
pointer receiver `*Request` becomes explicit state passing.  A `require`
assertion that fails stops the test at that line, so every builder method
returns the builder as it is left in memory together with the failure, if any.

The functions of `net/url`, `net/http` and `net/textproto` that the program
calls are modelled after the Go standard library.  `encoding/json`, the
`Set-Cookie` line parser, the authority parser of `net/url`, the reader of a
header block in `net/http` and the handler under test are parameters.
-/

namespace Htest

/-! ## Strings and maps -/

/-- One byte of a Go string. -/
abbrev Byte := Fin 256

/-- A Go `string` (or `[]byte`): a sequence of bytes. -/
abbrev GoString := List Byte

/-- The bytes of a string literal (UTF-8, as the Go compiler stores it). -/
def str (s : String) : GoString :=
  s.toList.flatMap (fun c => (String.utf8EncodeChar c).map (fun b => b.val))

deriving instance DecidableEq for Except

/-- A Go `map[string]α`: an association list in which every key occurs once.
The order of the entries stands for one iteration order of the map. -/
abbrev GoMap (α : Type) := List (GoString × α)

namespace GoMap

/-- Index expression `m[k]`, with `none` for an absent key. -/
def get? {α : Type} (m : GoMap α) (k : GoString) : Option α :=
  match m with
  | [] => none
  | (k', v) :: rest => if k' = k then some v else get? rest k

/-- Assignment `m[k] = v`: replaces the entry of `k`, or adds one. -/
def set {α : Type} (m : GoMap α) (k : GoString) (v : α) : GoMap α :=
  match m with
  | [] => [(k, v)]
  | (k', v') :: rest => if k' = k then (k, v) :: rest else (k', v') :: set rest k v

/-- The keys of the map, in iteration order. -/
def keys {α : Type} (m : GoMap α) : List GoString := m.map Prod.fst

end GoMap

/-- `strings.HasPrefix`. -/
def HasPrefix : GoString → GoString → Bool
  | _, [] => true
  | [], _ :: _ => false
  | c :: s, d :: p => c = d && HasPrefix s p

/-- `strings.Cut(s, sep)` for a one-byte separator: the text before the first
`sep`, the text after it, and whether `sep` was found. -/
def Cut (sep : Byte) : GoString → GoString × GoString × Bool
  | [] => ([], [], false)
  | c :: s =>
    if c = sep then ([], s, true)
    else ((c :: (Cut sep s).1), (Cut sep s).2.1, (Cut sep s).2.2)

/-- Comparison `a <= b` of Go strings: bytewise lexicographic. -/
def strLE : GoString → GoString → Bool
  | [], _ => true
  | _ :: _, [] => false
  | a :: as, b :: bs => a < b || (a = b && strLE as bs)

/-- `slices.Sort` on a slice of strings. -/
def sortStrings (keys : List GoString) : List GoString :=
  keys.insertionSort (fun a b => strLE a b = true)

/-! ## Parameters -/

/-- The parsers of the Go standard library that are taken as parameters.
`parseAuthority` tells whether `parseAuthority` of `net/url` accepts a
`user@host:port` text. `readHeader` tells whether `http.ReadRequest` accepts
the bytes that follow a request line when they do not start with an empty
line: the header block read by `ReadMIMEHeader` and the body read by
`readTransfer`. -/
structure Lib where
  parseAuthority : GoString → Bool
  readHeader : GoString → Bool

/-- A library whose two parsers accept every input, for concrete runs. -/
def Lib.accepting : Lib := { parseAuthority := fun _ => true, readHeader := fun _ => true }

/-! ## net/url -/

namespace url

/-- Errors returned by `net/url`. -/
inductive Error
  | EscapeError (s : GoString)
  | invalidSemicolon
  | invalidControlCharacter
  | emptyURL
  | missingProtocolScheme
  | invalidURIForRequest
  | invalidAuthority
  deriving DecidableEq, Repr

/-- The escaping modes of `net/url` that the program reaches. -/
inductive encoding
  | encodePath
  | encodeQueryComponent
  deriving DecidableEq, Repr

def isAlnum (c : Byte) : Bool :=
  (97 ≤ c.val && c.val ≤ 122) || (65 ≤ c.val && c.val ≤ 90) || (48 ≤ c.val && c.val ≤ 57)

/-- `shouldEscape(c, mode)`. -/
def shouldEscape (c : Byte) (mode : encoding) : Bool :=
  if isAlnum c then false
  else if c = 45 ∨ c = 95 ∨ c = 46 ∨ c = 126 then false  -- '-', '_', '.', '~'
  else if c = 36 ∨ c = 38 ∨ c = 43 ∨ c = 44 ∨ c = 47 ∨ c = 58 ∨ c = 59 ∨ c = 61
      ∨ c = 63 ∨ c = 64 then  -- '$', '&', '+', ',', '/', ':', ';', '=', '?', '@'
    match mode with
    | .encodePath => c = 63
    | .encodeQueryComponent => true
  else true

def ishex (c : Byte) : Bool :=
  (48 ≤ c.val && c.val ≤ 57) || (97 ≤ c.val && c.val ≤ 102) || (65 ≤ c.val && c.val ≤ 70)

def unhex (c : Byte) : Nat :=
  if 48 ≤ c.val ∧ c.val ≤ 57 then c.val - 48
  else if 97 ≤ c.val ∧ c.val ≤ 102 then c.val - 97 + 10
  else if 65 ≤ c.val ∧ c.val ≤ 70 then c.val - 65 + 10
  else 0

/-- Indexing `upperhex[n]` into `"0123456789ABCDEF"`. -/
def upperhex (n : Nat) : Byte :=
  if n < 10 then Fin.ofNat (48 + n) else Fin.ofNat (65 + (n - 10))

/-- `unescape(s, mode)`: decodes `%XX`, and `+` to a space in a query
component; fails with the first malformed escape. -/
def unescape (mode : encoding) : GoString → Except Error GoString
  | [] => .ok []
  | c :: s =>
    if c = 37 then
      match s with
      | h1 :: h2 :: t =>
        if ishex h1 && ishex h2 then
          match unescape mode t with
          | .ok r => .ok (Fin.ofNat (unhex h1 * 16 + unhex h2) :: r)
          | .error e => .error e
        else .error (.EscapeError ((c :: s).take 3))
      | _ => .error (.EscapeError ((c :: s).take 3))
    else
      match unescape mode s with
      | .ok r => .ok ((if c = 43 ∧ mode = .encodeQueryComponent then 32 else c) :: r)
      | .error e => .error e

/-- What `escape(s, mode)` writes for one byte. -/
def escapeByte (mode : encoding) (c : Byte) : GoString :=
  if c = 32 ∧ mode = .encodeQueryComponent then [43]
  else if shouldEscape c mode then [37, upperhex (c.val / 16), upperhex (c.val % 16)]
  else [c]

/-- `escape(s, mode)`. -/
def escape (s : GoString) (mode : encoding) : GoString :=
  s.flatMap (escapeByte mode)

def QueryEscape (s : GoString) : GoString := escape s .encodeQueryComponent

def QueryUnescape (s : GoString) : Except Error GoString := unescape .encodeQueryComponent s

/-- `url.Values`, a `map[string][]string`. -/
abbrev Values := GoMap (List GoString)

namespace Values

/-- `Values.Get(key)`: the first value of `key`, or `""`. -/
def Get (v : Values) (key : GoString) : GoString :=
  match v.get? key with
  | some (x :: _) => x
  | _ => []

/-- `Values.Set(key, value)`: `v[key] = []string{value}`. -/
def Set (v : Values) (key value : GoString) : Values :=
  GoMap.set v key [value]

/-- `Values.Add(key, value)`: `v[key] = append(v[key], value)`. -/
def Add (v : Values) (key value : GoString) : Values :=
  GoMap.set v key ((v.get? key).getD [] ++ [value])

/-- The inner loop of `Encode`: writes `key=value` for every value of one key,
with `&` in front when the buffer is not empty. -/
def encodeKey (keyEscaped : GoString) (vs : List GoString) (buf : GoString) : GoString :=
  vs.foldl
    (fun buf v =>
      (if buf.length > 0 then buf ++ [38] else buf) ++ keyEscaped ++ [61] ++ QueryEscape v)
    buf

/-- `Values.Encode()`: the keys sorted, each value written as
`QueryEscape(key)=QueryEscape(value)`, joined by `&`. -/
def Encode (v : Values) : GoString :=
  if v.length = 0 then []
  else
    (sortStrings (GoMap.keys v)).foldl
      (fun buf k => encodeKey (QueryEscape k) ((v.get? k).getD []) buf)
      []

end Values

/-- One round of the loop of `parseQuery`: the map and the error after the
segment `key` (the text up to the next `&`) has been handled. -/
def parseSegment (m : Values) (err : Option Error) (key : GoString) : Values × Option Error :=
  if (59 : Byte) ∈ key then (m, some .invalidSemicolon)
  else if key = [] then (m, err)
  else
    match QueryUnescape (Cut 61 key).1 with
    | .error err1 => (m, if err = none then some err1 else err)
    | .ok k =>
      match QueryUnescape (Cut 61 key).2.1 with
      | .error err1 => (m, if err = none then some err1 else err)
      | .ok value => (Values.Add m k value, err)

/-- `parseQuery(m, query)`: the loop `for query != ""`, one segment per round.
The fuel bounds the number of rounds; `query.length` rounds always suffice. -/
def parseQueryLoop : Nat → Values → Option Error → GoString → Values × Option Error
  | 0, m, err, _ => (m, err)
  | fuel + 1, m, err, query =>
    if query = [] then (m, err)
    else
      parseQueryLoop fuel (parseSegment m err (Cut 38 query).1).1
        (parseSegment m err (Cut 38 query).1).2 (Cut 38 query).2.1

/-- `url.ParseQuery(query)`: the map of the pairs that could be read and the
first error met. -/
def ParseQuery (query : GoString) : Values × Option Error :=
  parseQueryLoop query.length [] none query

/-- The fields of `url.URL` that `ParseRequestURI` fills in and that do not
come from the authority. `RawPath`, `User` and `Host` are left out: the
program reads `Path` and `RawQuery` only. -/
structure URL where
  Scheme : GoString
  Opaque : GoString
  Path : GoString
  RawQuery : GoString
  ForceQuery : Bool
  deriving DecidableEq, Repr

/-- `stringContainsCTLByte`. -/
def stringContainsCTLByte (s : GoString) : Bool :=
  s.any (fun b => b.val < 32 || b.val = 127)

def isLetter (c : Byte) : Bool :=
  (97 ≤ c.val && c.val ≤ 122) || (65 ≤ c.val && c.val ≤ 90)

/-- The loop of `getScheme` from byte `i` on; `pre` holds the bytes before `i`.
The result is the scheme and the rest, or the error of a leading colon. -/
def getSchemeLoop (rawURL : GoString) (pre : GoString) : GoString → Except Error (GoString × GoString)
  | [] => .ok ([], rawURL)
  | c :: s =>
    if isLetter c then getSchemeLoop rawURL (pre ++ [c]) s
    else if (48 ≤ c.val ∧ c.val ≤ 57) ∨ c = 43 ∨ c = 45 ∨ c = 46 then
      if pre = [] then .ok ([], rawURL) else getSchemeLoop rawURL (pre ++ [c]) s
    else if c = 58 then
      if pre = [] then .error .missingProtocolScheme else .ok (pre, s)
    else .ok ([], rawURL)

/-- `getScheme(rawURL)`. -/
def getScheme (rawURL : GoString) : Except Error (GoString × GoString) :=
  getSchemeLoop rawURL [] rawURL

/-- `strings.ToLower` on ASCII letters. -/
def toLowerByte (c : Byte) : Byte :=
  if 65 ≤ c.val ∧ c.val ≤ 90 then Fin.ofNat (c.val + 32) else c

/-- `URL.setPath(p)` as far as `Path` goes. -/
def setPath (u : URL) (p : GoString) : Except Error URL :=
  match unescape .encodePath p with
  | .error e => .error e
  | .ok path => .ok { u with Path := path }

/-- `parse(rawURL, viaRequest)` with `viaRequest = true`, the form
`ParseRequestURI` uses. `lib.parseAuthority` tells whether the authority parser of
`net/url` accepts a `user@host:port` text. -/
def parse (lib : Lib) (rawURL : GoString) : Except Error URL :=
  if stringContainsCTLByte rawURL then .error .invalidControlCharacter
  else if rawURL = [] then .error .emptyURL
  else if rawURL = [42] then
    .ok { Scheme := [], Opaque := [], Path := [42], RawQuery := [], ForceQuery := false }
  else
    match getScheme rawURL with
    | .error e => .error e
    | .ok (scheme, rest0) =>
      let scheme := scheme.map toLowerByte
      let force := rest0.getLast? = some 63 ∧ rest0.count 63 = 1
      let rest := if force then rest0.dropLast else (Cut 63 rest0).1
      let rawQuery := if force then [] else (Cut 63 rest0).2.1
      let u : URL :=
        { Scheme := scheme, Opaque := [], Path := [], RawQuery := rawQuery, ForceQuery := force }
      if ¬ HasPrefix rest [47] ∧ scheme ≠ [] then .ok { u with Opaque := rest }
      else if ¬ HasPrefix rest [47] then .error .invalidURIForRequest
      else if scheme ≠ [] ∧ HasPrefix rest [47, 47] then
        let authority := (rest.drop 2).takeWhile (fun b => b ≠ 47)
        let rest := (rest.drop 2).dropWhile (fun b => b ≠ 47)
        if lib.parseAuthority authority then setPath u rest else .error .invalidAuthority
      else setPath u rest

/-- `url.ParseRequestURI(rawURL)`. -/
def ParseRequestURI (lib : Lib) (rawURL : GoString) : Except Error URL :=
  parse lib rawURL

end url

/-! ## net/textproto and net/http -/

namespace http

/-- `validHeaderFieldByte`: the token bytes of RFC 7230. -/
def validHeaderFieldByte (c : Byte) : Bool :=
  url.isAlnum c ||
    decide (c = 33 ∨ c = 35 ∨ c = 36 ∨ c = 37 ∨ c = 38 ∨ c = 39 ∨ c = 42 ∨ c = 43 ∨ c = 45
      ∨ c = 46 ∨ c = 94 ∨ c = 95 ∨ c = 96 ∨ c = 124 ∨ c = 126)

/-- The rewriting loop of `canonicalMIMEHeaderKey`: upper case at the start
and after each dash, lower case elsewhere. -/
def canonicalLoop (upper : Bool) : GoString → GoString
  | [] => []
  | c :: s =>
    let c' : Byte :=
      if upper ∧ 97 ≤ c.val ∧ c.val ≤ 122 then Fin.ofNat (c.val - 32)
      else if ¬ upper ∧ 65 ≤ c.val ∧ c.val ≤ 90 then Fin.ofNat (c.val + 32)
      else c
    c' :: canonicalLoop (c' = 45) s

/-- `textproto.CanonicalMIMEHeaderKey` (and `http.CanonicalHeaderKey`): a key
with a byte that is no token byte is returned unchanged. -/
def CanonicalHeaderKey (s : GoString) : GoString :=
  if s.all validHeaderFieldByte then canonicalLoop true s else s

end http

/-- `http.Header`, a `map[string][]string`. -/
abbrev Header := GoMap (List GoString)

namespace Header

/-- `Header.Get(key)`: the first value stored under the canonical key, or `""`. -/
def Get (h : Header) (key : GoString) : GoString :=
  match h.get? (http.CanonicalHeaderKey key) with
  | some (x :: _) => x
  | _ => []

/-- `Header.Set(key, value)`: `h[CanonicalHeaderKey(key)] = []string{value}`. -/
def Set (h : Header) (key value : GoString) : Header :=
  GoMap.set h (http.CanonicalHeaderKey key) [value]

end Header

namespace http

/-- `sanitizeCookieName`: line breaks become dashes. -/
def sanitizeCookieName (n : GoString) : GoString :=
  n.map (fun b => if b = 10 ∨ b = 13 then 45 else b)

/-- `validCookieValueByte`. -/
def validCookieValueByte (b : Byte) : Bool :=
  32 ≤ b.val && b.val < 127 && b ≠ 34 && b ≠ 59 && b ≠ 92

/-- `sanitizeCookieValue(v, false)`: invalid bytes are dropped, and a value
with a space or a comma is wrapped in double quotes. -/
def sanitizeCookieValue (v : GoString) : GoString :=
  let v := v.filter validCookieValueByte
  if v.length = 0 then v
  else if (32 : Byte) ∈ v ∨ (44 : Byte) ∈ v then [34] ++ v ++ [34]
  else v

/-- `Request.AddCookie(&http.Cookie{Name: name, Value: value})` on the header
map of the request. -/
def AddCookie (h : Header) (name value : GoString) : Header :=
  let s := sanitizeCookieName name ++ [61] ++ sanitizeCookieValue value
  if h.Get (str "Cookie") ≠ [] then h.Set (str "Cookie") (h.Get (str "Cookie") ++ str "; " ++ s)
  else h.Set (str "Cookie") s

/-- The `*http.Request` built by `StdRequest`. `Body` is `none` for
`http.NoBody`. -/
structure Request where
  Method : GoString
  RequestURI : GoString
  Header : Header
  Body : Option GoString
  RemoteAddr : GoString
  deriving DecidableEq, Repr

/-- `validMethod`: a non-empty token. -/
def validMethod (method : GoString) : Bool :=
  method.length > 0 && method.all validHeaderFieldByte

/-- `textproto.Reader.ReadLine` on the bytes still to be read: the line up to
the first line feed, without the line feed and without one carriage return
before it, and the bytes after the line feed. -/
def ReadLine (input : GoString) : GoString × GoString :=
  (if (Cut 10 input).1.getLast? = some 13 then (Cut 10 input).1.dropLast else (Cut 10 input).1,
    (Cut 10 input).2.1)

/-- `parseRequestLine(line)`: the method, the request URI and the protocol of
`GET /foo HTTP/1.1`, cut at the first two spaces. -/
def parseRequestLine (line : GoString) : Option (GoString × GoString × GoString) :=
  if (Cut 32 line).2.2 ∧ (Cut 32 (Cut 32 line).2.1).2.2 then
    some ((Cut 32 line).1, (Cut 32 (Cut 32 line).2.1).1, (Cut 32 (Cut 32 line).2.1).2.1)
  else none

/-- `http.ParseHTTPVersion(vers)`, whether it succeeds: `HTTP/X.Y` with one
digit each. -/
def ParseHTTPVersion (vers : GoString) : Bool :=
  match vers with
  | [72, 84, 84, 80, 47, x, 46, y] =>
    decide (48 ≤ x.val ∧ x.val ≤ 57 ∧ 48 ≤ y.val ∧ y.val ≤ 57)
  | _ => false

/-- `httptest.NewRequest(method, target, body)`: `http.ReadRequest` reads
`method target HTTP/1.0` followed by an empty line, and a failure is a panic
(`none`). The request line ends at the first line feed and is cut at its first
two spaces, so the request URI is the target only when neither it nor the
method holds a space or a line feed. After the request line an empty line
ends the header block; other bytes are left to `lib.readHeader`. -/
def NewRequest (lib : Lib) (method target : GoString) (body : Option GoString) :
    Option Request :=
  let method := if method = [] then str "GET" else method
  let input := method ++ [32] ++ target ++ str " HTTP/1.0\r\n\r\n"
  match parseRequestLine (ReadLine input).1 with
  | none => none
  | some (m, requestURI, proto) =>
    let rawurl :=
      if m = str "CONNECT" ∧ ¬ HasPrefix requestURI [47] then str "http://" ++ requestURI
      else requestURI
    if validMethod m ∧ ParseHTTPVersion proto ∧ (url.ParseRequestURI lib rawurl).toBool
        ∧ ((ReadLine (ReadLine input).2).1 = [] ∨ lib.readHeader (ReadLine input).2) then
      some { Method := m, RequestURI := requestURI, Header := [], Body := body,
             RemoteAddr := str "192.0.2.1:1234" }
    else none

end http

/-! ## htest -/

def MIMEApplicationJSON : GoString := str "application/json"

def MIMEApplicationForm : GoString := str "application/x-www-form-urlencoded"

def HeaderContentLength : GoString := str "Content-Length"

def HeaderContentType : GoString := str "Content-Type"

def HeaderSetCookie : GoString := str "Set-Cookie"

/-- `strconv.Itoa`. -/
def Itoa (n : Int) : GoString :=
  match n with
  | .ofNat m => str (Nat.repr m)
  | .negSucc m => [45] ++ str (Nat.repr (m + 1))

/-- The ways a test stops inside the package: a failed `require` assertion or
a panic of `httptest.NewRequest`. `error` carries the text testify prints
under `Error:` and `messages` the text it prints under `Messages:`. -/
inductive Failure
  | formContentType
  | bodyJSONContentType
  | marshal
  | parseRequestURI (e : url.Error)
  | parseQuery (e : url.Error)
  | newRequestPanic
  | unmarshal
  | expectCode (error messages : GoString)
  deriving DecidableEq, Repr

/-- The builder `Request`. The fields `t`, `r` and `srv` are parameters of the
functions that use them. -/
structure Request where
  headers : Header
  urlQuery : url.Values
  formData : url.Values
  cookies : GoMap GoString
  httpVerb : GoString
  contentType : GoString
  endpoint : GoString
  httpBody : Option GoString
  deriving DecidableEq, Repr

/-- What a method of the builder leaves behind: the builder as it is in memory
when the method returns or stops the test, and the value returned or the
failure. -/
structure Run (α : Type) where
  builder : Request
  result : Except Failure α

/-- `New(t, server)`. -/
def New : Request :=
  { headers := [(http.CanonicalHeaderKey (str "user-agent"), [str "chii-test-client"])]
    urlQuery := []
    formData := []
    cookies := []
    httpVerb := []
    contentType := []
    endpoint := []
    httpBody := none }

namespace Request

/-- `Request.Cookie(key, value)`. -/
def Cookie (r : Request) (key value : GoString) : Request :=
  { r with cookies := GoMap.set r.cookies key value }

/-- `Request.Query(key, value)`. -/
def Query (r : Request) (key value : GoString) : Request :=
  { r with urlQuery := r.urlQuery.Set key value }

/-- `Request.Header(key, value)`. -/
def Header (r : Request) (key value : GoString) : Request :=
  { r with headers := r.headers.Set key value }

/-- `Request.Form(key, value)`. -/
def Form (r : Request) (key value : GoString) : Run Unit :=
  let r1 := if r.contentType = [] then { r with contentType := MIMEApplicationForm } else r
  if r1.contentType ≠ MIMEApplicationForm then ⟨r1, .error .formContentType⟩
  else
    let formData := r1.formData.Set key value
    ⟨{ r1 with formData := formData, httpBody := some formData.Encode }, .ok ()⟩

/-- `Request.BodyJSON(v)`; `Marshal` is `json.Marshal`, `none` for an error. -/
def BodyJSON {α : Type} (Marshal : α → Option GoString) (r : Request) (v : α) : Run Unit :=
  if r.contentType ≠ [] then ⟨r, .error .bodyJSONContentType⟩
  else
    match Marshal v with
    | none => ⟨{ r with httpBody := none }, .error .marshal⟩
    | some b => ⟨{ r with httpBody := some b, contentType := MIMEApplicationJSON }, .ok ()⟩

/-- Lines 145 to 153 of `StdRequest`: with a body present, the headers get the
content length, and the content type unless one is there. -/
def bodyHeaders (r : Request) : Htest.Header :=
  match r.httpBody with
  | none => r.headers
  | some b =>
    let h := r.headers.Set HeaderContentLength (Itoa b.length)
    if h.Get HeaderContentType = [] then h.Set HeaderContentType r.contentType else h

/-- The loop `for key, values := range r.urlQuery` with its inner loop: every
value is added to `q` with `q.Add`. -/
def addQuery (urlQuery : url.Values) (q : url.Values) : url.Values :=
  urlQuery.foldl (fun q kv => kv.2.foldl (fun q value => q.Add kv.1 value) q) q

/-- Lines 155 to 172 of `StdRequest`: the target handed to
`httptest.NewRequest`. -/
def composePath (lib : Lib) (r : Request) : Except Failure GoString :=
  if r.urlQuery.length > 0 then
    match url.ParseRequestURI lib r.endpoint with
    | .error e => .error (.parseRequestURI e)
    | .ok u =>
      match url.ParseQuery u.RawQuery with
      | (_, some e) => .error (.parseQuery e)
      | (q, none) => .ok (u.Path ++ [63] ++ (addQuery r.urlQuery q).Encode)
  else .ok r.endpoint

/-- The loop `for name, value := range r.cookies` over `req.AddCookie`. -/
def addCookies (cookies : GoMap GoString) (h : Htest.Header) : Htest.Header :=
  cookies.foldl (fun h c => http.AddCookie h c.1 c.2) h

/-- `Request.StdRequest()`. The request shares its header map with the
builder, so the cookies added to the request show in the builder too. -/
def StdRequest (lib : Lib) (r : Request) : Run http.Request :=
  let r1 := { r with headers := bodyHeaders r }
  match composePath lib r1 with
  | .error e => ⟨r1, .error e⟩
  | .ok path =>
    match http.NewRequest lib r1.httpVerb path r1.httpBody with
    | none => ⟨r1, .error .newRequestPanic⟩
    | some req =>
      let h := addCookies r1.cookies r1.headers
      ⟨{ r1 with headers := h }, .ok { req with Header := h, RemoteAddr := str "0.0.0.0:3000" }⟩

end Request

/-- What the handler under test leaves in the `httptest.ResponseRecorder`. -/
structure Recorded where
  Code : Int
  HeaderMap : Header
  Body : GoString
  deriving DecidableEq, Repr

/-- The captured `Response`; `κ` is the type of a parsed cookie. -/
structure Response (κ : Type) where
  Header : Header
  Body : GoString
  cookies : List κ
  StatusCode : Int
  Req : http.Request
  deriving DecidableEq, Repr

/-- `http.Response.Cookies()`, that is `readSetCookies(h)`: the lines under the
key `Set-Cookie` that `ParseSetCookie` accepts, in order. -/
def readSetCookies {κ : Type} (ParseSetCookie : GoString → Option κ) (h : Header) : List κ :=
  ((h.get? (str "Set-Cookie")).getD []).filterMap ParseSetCookie

/-- `parseCookies(t, rawCookies)`. -/
def parseCookies {κ : Type} (ParseSetCookie : GoString → Option κ) (rawCookies : GoString) :
    List κ :=
  if rawCookies = [] then []
  else readSetCookies ParseSetCookie [(HeaderSetCookie, [rawCookies])]

namespace Request

/-- `Request.execute()`; `srv` is the handler under test. -/
def execute {κ : Type} (lib : Lib)
    (ParseSetCookie : GoString → Option κ) (srv : http.Request → Recorded) (r : Request) :
    Run (Response κ) :=
  match (StdRequest lib r).result with
  | .error e => ⟨(StdRequest lib r).builder, .error e⟩
  | .ok req =>
    ⟨(StdRequest lib r).builder,
      .ok { Req := req
            StatusCode := (srv req).Code
            Header := (srv req).HeaderMap
            Body := (srv req).Body
            cookies := parseCookies ParseSetCookie ((srv req).HeaderMap.Get HeaderSetCookie) }⟩

/-- `Request.newRequest(httpVerb, endpoint)`. -/
def newRequest {κ : Type} (lib : Lib)
    (ParseSetCookie : GoString → Option κ) (srv : http.Request → Recorded) (r : Request)
    (httpVerb endpoint : GoString) : Run (Response κ) :=
  execute lib ParseSetCookie srv { r with httpVerb := httpVerb, endpoint := endpoint }

/-- `Request.Get(entrypoint)`. -/
def Get {κ : Type} (lib : Lib) (ParseSetCookie : GoString → Option κ)
    (srv : http.Request → Recorded) (r : Request) (entrypoint : GoString) : Run (Response κ) :=
  newRequest lib ParseSetCookie srv r (str "GET") entrypoint

/-- `Request.Post(entrypoint)`. -/
def Post {κ : Type} (lib : Lib) (ParseSetCookie : GoString → Option κ)
    (srv : http.Request → Recorded) (r : Request) (entrypoint : GoString) : Run (Response κ) :=
  newRequest lib ParseSetCookie srv r (str "POST") entrypoint

/-- `Request.Put(entrypoint)`. -/
def Put {κ : Type} (lib : Lib) (ParseSetCookie : GoString → Option κ)
    (srv : http.Request → Recorded) (r : Request) (entrypoint : GoString) : Run (Response κ) :=
  newRequest lib ParseSetCookie srv r (str "PUT") entrypoint

/-- `Request.Patch(path)`. -/
def Patch {κ : Type} (lib : Lib) (ParseSetCookie : GoString → Option κ)
    (srv : http.Request → Recorded) (r : Request) (path : GoString) : Run (Response κ) :=
  newRequest lib ParseSetCookie srv r (str "PATCH") path

/-- `Request.Delete(entrypoint)`. -/
def Delete {κ : Type} (lib : Lib) (ParseSetCookie : GoString → Option κ)
    (srv : http.Request → Recorded) (r : Request) (entrypoint : GoString) : Run (Response κ) :=
  newRequest lib ParseSetCookie srv r (str "DELETE") entrypoint

end Request

namespace Response

/-- What `Response.JSON(v)` leaves behind: the target `*v` and the response
returned or the failure. -/
structure Decoded (κ τ : Type) where
  target : τ
  result : Except Failure (Response κ)

/-- `Response.JSON(v)`. `Unmarshal body v` is `json.Unmarshal(body, &v)`: the
target as the decoder leaves it and whether the error is nil. -/
def JSON {κ τ : Type} (Unmarshal : GoString → τ → τ × Bool) (r : Response κ) (v : τ) :
    Decoded κ τ :=
  if HasPrefix (r.Header.Get HeaderContentType) MIMEApplicationJSON then
    if (Unmarshal r.Body v).2 then ⟨(Unmarshal r.Body v).1, .ok r⟩
    else ⟨(Unmarshal r.Body v).1, .error .unmarshal⟩
  else ⟨v, .ok r⟩

/-- `Response.BodyString()`. -/
def BodyString {κ : Type} (r : Response κ) : GoString := r.Body

/-- `Response.ExpectCode(t)`: `require.Equalf(r.t, t, r.StatusCode, ...)`. -/
def ExpectCode {κ : Type} (r : Response κ) (t : Int) : Except Failure (Response κ) :=
  if t = r.StatusCode then .ok r
  else
    .error (.expectCode
      (str "Not equal: \nexpected: " ++ Itoa t ++ str "\nactual  : " ++ Itoa r.StatusCode)
      (str "expecting http response status code " ++ Itoa t ++ str ", body: " ++ r.BodyString))

/-- `Response.Cookies()`. -/
def Cookies {κ : Type} (r : Response κ) : List κ := r.cookies

end Response

/-! ## Chains of builder calls -/

/-- One configuration call on the builder; `α` is the type of the values
passed to `BodyJSON`. -/
inductive Call (α : Type)
  | Header (key value : GoString)
  | Cookie (key value : GoString)
  | Query (key value : GoString)
  | Form (key value : GoString)
  | BodyJSON (v : α)

namespace Request

/-- The builder after one call. -/
def call {α : Type} (Marshal : α → Option GoString) (r : Request) : Call α → Run Unit
  | .Header key value => ⟨r.Header key value, .ok ()⟩
  | .Cookie key value => ⟨r.Cookie key value, .ok ()⟩
  | .Query key value => ⟨r.Query key value, .ok ()⟩
  | .Form key value => r.Form key value
  | .BodyJSON v => r.BodyJSON Marshal v

/-- A chain of calls; the test stops at the first call that fails. -/
def calls {α : Type} (Marshal : α → Option GoString) (r : Request) : List (Call α) → Run Unit
  | [] => ⟨r, .ok ()⟩
  | c :: cs =>
    match (call Marshal r c).result with
    | .ok _ => calls Marshal (call Marshal r c).builder cs
    | .error e => ⟨(call Marshal r c).builder, .error e⟩

end Request

open url

/-! ## Specification-side notions -/

/-- Whether a call is a `Form` call. -/
def Call.isForm {α : Type} : Call α → Bool
  | .Form _ _ => true
  | _ => false

/-- Equality of two strings up to the case of ASCII letters. -/
def eqIgnoreCase (a b : GoString) : Prop := a.map url.toLowerByte = b.map url.toLowerByte

instance (a b : GoString) : Decidable (eqIgnoreCase a b) := by
  unfold eqIgnoreCase; infer_instance

/-- Whether a call is `Header` with a name equal to `name` up to letter case. -/
def Call.setsHeader {α : Type} (name : GoString) : Call α → Prop
  | .Header key _ => eqIgnoreCase key name
  | _ => False

/-- Segments joined by `&`. -/
def joinAmp : List GoString → GoString
  | [] => []
  | s :: t => s ++ t.flatMap (fun x => 38 :: x)

/-- The key/value pairs of a `url.Values`, key by key. -/
def pairs (v : url.Values) : List (GoString × GoString) :=
  v.flatMap (fun e => e.2.map (fun x => (e.1, x)))

/-- The key/value pairs in the query string of a request target: the text
after the first `?`, read by `url.ParseQuery`. -/
def queryPairs (target : GoString) : List (GoString × GoString) :=
  pairs (url.ParseQuery (Cut 63 target).2.1).1

/-- The value of the last call made for `key`, if there is one. -/
def lastValue (calls : List (GoString × GoString)) (key : GoString) : Option GoString :=
  (calls.reverse.find? (fun c => c.1 = key)).map Prod.snd

/-- The distinct keys of a list of calls. -/
def distinctKeys (calls : List (GoString × GoString)) : List GoString :=
  (calls.map Prod.fst).dedup

/-- One pair per distinct key of `calls`, with the value of the last call. -/
def lastPairs (calls : List (GoString × GoString)) : List (GoString × GoString) :=
  (distinctKeys calls).map (fun k => (k, (lastValue calls k).getD []))

/-- The URL-encoding of a mapping given by the calls that built it: the
distinct keys in ascending order, one `key=value` entry for each with the value
of the last call, joined by `&`. -/
def encodeLastWrites (calls : List (GoString × GoString)) : GoString :=
  joinAmp ((sortStrings (distinctKeys calls)).map
    (fun k => url.QueryEscape k ++ [61] ++ url.QueryEscape ((lastValue calls k).getD [])))

/-- The builder after `Query(key, value)` for every pair of `calls`, in order. -/
def Request.queries (r : Request) (calls : List (GoString × GoString)) : Request :=
  calls.foldl (fun r c => r.Query c.1 c.2) r

/-- The builder run after `Form(key, value)` for every pair of `calls`. -/
def Request.forms (r : Request) (calls : List (GoString × GoString)) : Run Unit :=
  Request.calls (fun _ : Unit => none) r (calls.map (fun c => Call.Form c.1 c.2))


/-- The entries that `Encode` writes: for every key in ascending order, one
`key=value` text for each of its values. -/
def url.Values.segments (v : url.Values) : List GoString :=
  (sortStrings (GoMap.keys v)).flatMap
    (fun k => ((v.get? k).getD []).map (fun x => QueryEscape k ++ [61] ++ QueryEscape x))


/-- The query string that the claim describes for a path query `q0` and the
explicit pairs `explicit`: the keys in ascending order and, for each key, its
values from the path in their order followed by its explicit values, every
pair percent-encoded as `key=value`, joined by `&`. -/
def mergedQuery (q0 : url.Values) (explicit : List (GoString × GoString)) : GoString :=
  joinAmp ((sortStrings (GoMap.keys q0 ++ explicit.map Prod.fst).dedup).flatMap
    (fun k =>
      ((q0.get? k).getD [] ++ (explicit.filter (fun c => c.1 = k)).map Prod.snd).map
        (fun v => url.QueryEscape k ++ [61] ++ url.QueryEscape v)))


/-- The relation between the stored content type, the body and the form map
that the claim states for a builder. -/
def bodyInvariant (r : Request) : Prop :=
  (r.contentType = [] ∨ r.contentType = MIMEApplicationForm
      ∨ r.contentType = MIMEApplicationJSON) ∧
    (r.httpBody = none ↔ r.contentType = []) ∧
    (r.contentType = MIMEApplicationForm →
      r.formData ≠ [] ∧ r.httpBody = some r.formData.Encode) ∧
    (r.contentType = MIMEApplicationJSON → r.formData = [])


/-- A valid cookie name: a token that is not empty. -/
def validCookieName (n : GoString) : Prop :=
  n ≠ [] ∧ n.all http.validHeaderFieldByte = true

/-- A valid cookie value: cookie octets only, so no control byte, space,
double quote, comma, semicolon or backslash. -/
def validCookieValue (v : GoString) : Prop :=
  v.all (fun b => http.validCookieValueByte b && decide (b ≠ 32) && decide (b ≠ 44)) = true

instance (n : GoString) : Decidable (validCookieName n) := by
  unfold validCookieName; infer_instance

instance (v : GoString) : Decidable (validCookieValue v) := by
  unfold validCookieValue; infer_instance

/-- Cookie pairs joined by `; `, the form of a `Cookie` request header. -/
def joinSemi : List GoString → GoString
  | [] => []
  | s :: t => s ++ t.flatMap (fun x => [59, 32] ++ x)

/-- The builder after `Cookie(name, value)` for every pair of `calls`. -/
def Request.cookieCalls (r : Request) (calls : List (GoString × GoString)) : Request :=
  calls.foldl (fun r c => r.Cookie c.1 c.2) r


/-- A path that the composer leaves as it is supplied: it starts with `/`,
holds no control byte, and its part before the first `?` holds no space and no
percent-escape. -/
def plainPath (endpoint : GoString) : Prop :=
  HasPrefix endpoint [47] = true ∧ url.stringContainsCTLByte endpoint = false ∧
    (37 : Byte) ∉ (Cut 63 endpoint).1 ∧ (32 : Byte) ∉ (Cut 63 endpoint).1

instance (endpoint : GoString) : Decidable (plainPath endpoint) := by
  unfold plainPath; infer_instance

/-! ## Facts about chains of calls -/

theorem MIMEApplicationForm_ne_nil : MIMEApplicationForm ≠ [] := by decide

theorem MIMEApplicationJSON_ne_nil : MIMEApplicationJSON ≠ [] := by decide

theorem MIMEApplicationJSON_ne_Form : MIMEApplicationJSON ≠ MIMEApplicationForm := by decide

theorem Request.calls_cons_ok {α : Type} (Marshal : α → Option GoString) (r : Request)
    (c : Call α) (cs : List (Call α)) (h : (Request.calls Marshal r (c :: cs)).result = .ok ()) :
    (Request.call Marshal r c).result = .ok () ∧
      Request.calls Marshal r (c :: cs)
        = Request.calls Marshal (Request.call Marshal r c).builder cs := by
  cases hc : (Request.call Marshal r c).result with
  | ok u => exact ⟨rfl, by rw [Request.calls, hc]⟩
  | error e => rw [Request.calls, hc] at h; simp at h

/-- Once the stored content type is the form type, it stays so along every
chain of calls that succeeds, and the body stays as long as no `Form` is called. -/
theorem Request.calls_of_form {α : Type} (Marshal : α → Option GoString) (cs : List (Call α)) :
    ∀ r : Request, r.contentType = MIMEApplicationForm →
      (Request.calls Marshal r cs).result = .ok () →
      (Request.calls Marshal r cs).builder.contentType = MIMEApplicationForm ∧
        ((∀ c ∈ cs, Call.isForm c = false) →
          (Request.calls Marshal r cs).builder.httpBody = r.httpBody) := by
  induction cs with
  | nil => intro r h _; exact ⟨h, fun _ => rfl⟩
  | cons c cs ih =>
    intro r h hok
    obtain ⟨hc, heq⟩ := Request.calls_cons_ok Marshal r c cs hok
    rw [heq] at hok ⊢
    cases c with
    | Header key value =>
      have := ih (r.Header key value) h hok
      exact ⟨this.1, fun hf => this.2 (fun c hc => hf c (List.mem_cons_of_mem _ hc))⟩
    | Cookie key value =>
      have := ih (r.Cookie key value) h hok
      exact ⟨this.1, fun hf => this.2 (fun c hc => hf c (List.mem_cons_of_mem _ hc))⟩
    | Query key value =>
      have := ih (r.Query key value) h hok
      exact ⟨this.1, fun hf => this.2 (fun c hc => hf c (List.mem_cons_of_mem _ hc))⟩
    | Form key value =>
      have hb : (Request.call Marshal r (Call.Form key value)).builder.contentType
          = MIMEApplicationForm := by
        simp [Request.call, Request.Form, h, MIMEApplicationForm_ne_nil]
      have := ih _ hb hok
      refine ⟨this.1, fun hf => ?_⟩
      have := hf (Call.Form key value) (List.mem_cons_self _ _)
      simp [Call.isForm] at this
    | BodyJSON v =>
      simp [Request.call, Request.BodyJSON, h, MIMEApplicationForm_ne_nil] at hc

/-- Once the stored content type is the JSON type, every chain of calls that
succeeds leaves the content type and the body alone. -/
theorem Request.calls_of_json {α : Type} (Marshal : α → Option GoString) (cs : List (Call α)) :
    ∀ r : Request, r.contentType = MIMEApplicationJSON →
      (Request.calls Marshal r cs).result = .ok () →
      (Request.calls Marshal r cs).builder.contentType = MIMEApplicationJSON ∧
        (Request.calls Marshal r cs).builder.httpBody = r.httpBody := by
  induction cs with
  | nil => intro r h _; exact ⟨h, rfl⟩
  | cons c cs ih =>
    intro r h hok
    obtain ⟨hc, heq⟩ := Request.calls_cons_ok Marshal r c cs hok
    rw [heq] at hok ⊢
    cases c with
    | Header key value => exact ih (r.Header key value) h hok
    | Cookie key value => exact ih (r.Cookie key value) h hok
    | Query key value => exact ih (r.Query key value) h hok
    | Form key value =>
      simp [Request.call, Request.Form, h, MIMEApplicationJSON_ne_nil,
        MIMEApplicationJSON_ne_Form] at hc
    | BodyJSON v =>
      simp [Request.call, Request.BodyJSON, h, MIMEApplicationJSON_ne_nil] at hc

theorem Request.Form_ok_contentType (r : Request) (k v : GoString)
    (h : (r.Form k v).result = .ok ()) :
    (r.Form k v).builder.contentType = MIMEApplicationForm := by
  unfold Request.Form at h ⊢
  by_cases h0 : r.contentType = []
  · simp [h0]
  · by_cases h1 : r.contentType = MIMEApplicationForm
    · simp [h1, MIMEApplicationForm_ne_nil]
    · simp [h0, h1] at h

theorem Request.BodyJSON_ok {α : Type} (Marshal : α → Option GoString) (r : Request) (x : α)
    (h : (r.BodyJSON Marshal x).result = .ok ()) :
    r.contentType = [] ∧ ∃ b, Marshal x = some b ∧
      (r.BodyJSON Marshal x).builder
        = { r with httpBody := some b, contentType := MIMEApplicationJSON } := by
  unfold Request.BodyJSON at h ⊢
  by_cases h0 : r.contentType = []
  · cases hm : Marshal x with
    | none => simp [h0, hm] at h
    | some b => simp [h0]
  · simp [h0] at h

/-! ## Facts about maps and headers -/

theorem GoMap.get?_set_self {α : Type} (m : GoMap α) (k : GoString) (v : α) :
    (GoMap.set m k v).get? k = some v := by
  induction m with
  | nil => simp [GoMap.set, GoMap.get?]
  | cons e m ih =>
    obtain ⟨k', v'⟩ := e
    by_cases h : k' = k <;> simp [GoMap.set, GoMap.get?, h, ih]

theorem GoMap.get?_set_of_ne {α : Type} (m : GoMap α) (k k' : GoString) (v : α) (h : k ≠ k') :
    (GoMap.set m k v).get? k' = m.get? k' := by
  induction m with
  | nil => simp [GoMap.set, GoMap.get?, h]
  | cons e m ih =>
    obtain ⟨k₁, v₁⟩ := e
    by_cases h1 : k₁ = k
    · subst h1; simp [GoMap.set, GoMap.get?, h]
    · by_cases h2 : k₁ = k'
      · subst h2
        simp [GoMap.set, GoMap.get?, h1]
      · simp [GoMap.set, GoMap.get?, h1, h2, ih]

theorem Header.Get_Set_self (h : Header) (key key' value : GoString)
    (hk : http.CanonicalHeaderKey key = http.CanonicalHeaderKey key') :
    (h.Set key value).Get key' = value := by
  simp [Header.Get, Header.Set, ← hk, GoMap.get?_set_self]

theorem Header.Get_Set_of_ne (h : Header) (key key' value : GoString)
    (hk : http.CanonicalHeaderKey key ≠ http.CanonicalHeaderKey key') :
    (h.Set key value).Get key' = h.Get key' := by
  simp [Header.Get, Header.Set, GoMap.get?_set_of_ne _ _ _ _ hk]

set_option maxRecDepth 100000 in
theorem http.toLowerByte_canon_byte : ∀ (u : Bool) (c : Byte),
    (if u = true ∧ 97 ≤ (url.toLowerByte c).val ∧ (url.toLowerByte c).val ≤ 122
        then (Fin.ofNat ((url.toLowerByte c).val - 32) : Byte)
      else if ¬ u = true ∧ 65 ≤ (url.toLowerByte c).val ∧ (url.toLowerByte c).val ≤ 90
        then Fin.ofNat ((url.toLowerByte c).val + 32)
      else url.toLowerByte c)
    = (if u = true ∧ 97 ≤ c.val ∧ c.val ≤ 122 then (Fin.ofNat (c.val - 32) : Byte)
      else if ¬ u = true ∧ 65 ≤ c.val ∧ c.val ≤ 90 then Fin.ofNat (c.val + 32)
      else c) := by
  decide

set_option maxRecDepth 100000 in
theorem http.toLowerByte_canon_out : ∀ (u : Bool) (c : Byte),
    url.toLowerByte
      (if u = true ∧ 97 ≤ c.val ∧ c.val ≤ 122 then (Fin.ofNat (c.val - 32) : Byte)
        else if ¬ u = true ∧ 65 ≤ c.val ∧ c.val ≤ 90 then Fin.ofNat (c.val + 32)
        else c)
    = url.toLowerByte c := by
  decide

set_option maxRecDepth 100000 in
theorem http.validHeaderFieldByte_toLower : ∀ c : Byte,
    http.validHeaderFieldByte (url.toLowerByte c) = http.validHeaderFieldByte c := by
  decide

/-- The rewriting loop sees the letters only up to their case. -/
theorem http.canonicalLoop_map_toLower (s : GoString) : ∀ u : Bool,
    http.canonicalLoop u (s.map url.toLowerByte) = http.canonicalLoop u s := by
  induction s with
  | nil => intro u; rfl
  | cons c s ih =>
    intro u
    simp only [List.map_cons, http.canonicalLoop, http.toLowerByte_canon_byte, ih]

/-- The rewriting loop changes the case of letters only. -/
theorem http.map_toLower_canonicalLoop (s : GoString) : ∀ u : Bool,
    (http.canonicalLoop u s).map url.toLowerByte = s.map url.toLowerByte := by
  induction s with
  | nil => intro u; rfl
  | cons c s ih =>
    intro u
    simp only [List.map_cons, http.canonicalLoop, http.toLowerByte_canon_out, ih]

theorem http.all_valid_map_toLower (s : GoString) :
    (s.map url.toLowerByte).all http.validHeaderFieldByte = s.all http.validHeaderFieldByte := by
  induction s with
  | nil => rfl
  | cons c s ih => simp only [List.map_cons, List.all_cons, http.validHeaderFieldByte_toLower, ih]

theorem http.map_toLower_CanonicalHeaderKey (s : GoString) :
    (http.CanonicalHeaderKey s).map url.toLowerByte = s.map url.toLowerByte := by
  unfold http.CanonicalHeaderKey
  split
  · exact http.map_toLower_canonicalLoop s true
  · rfl

theorem http.CanonicalHeaderKey_map_toLower (s : GoString)
    (h : (s.map url.toLowerByte).all http.validHeaderFieldByte = true) :
    http.CanonicalHeaderKey s = http.CanonicalHeaderKey (s.map url.toLowerByte) := by
  have h' : s.all http.validHeaderFieldByte = true := by
    rw [← http.all_valid_map_toLower]; exact h
  unfold http.CanonicalHeaderKey
  rw [if_pos h, if_pos h', http.canonicalLoop_map_toLower]

/-- A name equal to `Content-Type` up to letter case has the canonical key
`Content-Type`, and no other name has. -/
theorem http.CanonicalHeaderKey_eq_ContentType_iff (name : GoString) :
    http.CanonicalHeaderKey name = HeaderContentType ↔ eqIgnoreCase name HeaderContentType := by
  constructor
  · intro h
    unfold eqIgnoreCase
    rw [← http.map_toLower_CanonicalHeaderKey name, h]
  · intro h
    unfold eqIgnoreCase at h
    rw [http.CanonicalHeaderKey_map_toLower name (by rw [h]; decide), h]
    decide

theorem Header.Get_AddCookie (h : Header) (name value key : GoString)
    (hk : http.CanonicalHeaderKey (str "Cookie") ≠ http.CanonicalHeaderKey key) :
    (http.AddCookie h name value).Get key = h.Get key := by
  unfold http.AddCookie
  dsimp only
  split <;> exact Header.Get_Set_of_ne _ _ _ _ hk

theorem Header.Get_addCookies (cookies : GoMap GoString) (key : GoString)
    (hk : http.CanonicalHeaderKey (str "Cookie") ≠ http.CanonicalHeaderKey key) :
    ∀ h : Header, (Request.addCookies cookies h).Get key = h.Get key := by
  induction cookies with
  | nil => intro h; rfl
  | cons c cookies ih =>
    intro h
    simp only [Request.addCookies, List.foldl_cons] at ih ⊢
    rw [ih, Header.Get_AddCookie _ _ _ _ hk]

/-- A request that `httptest.NewRequest` returns has the body it was given. -/
theorem http.NewRequest_some (lib : Lib) (method target : GoString)
    (body : Option GoString) (req : http.Request)
    (h : http.NewRequest lib method target body = some req) :
    req.Body = body := by
  unfold http.NewRequest at h
  dsimp only at h
  split at h
  · simp at h
  · split_ifs at h
    all_goals (simp only [Option.some.injEq] at h; subst h; rfl)

/-- The content type that `StdRequest` leaves in the headers: the one already
there, or the stored one when a body is present and none is there. -/
theorem Request.bodyHeaders_Get_ContentType (r : Request) :
    (Request.bodyHeaders r).Get HeaderContentType
      = if r.httpBody = none then r.headers.Get HeaderContentType
        else if r.headers.Get HeaderContentType = [] then r.contentType
        else r.headers.Get HeaderContentType := by
  unfold Request.bodyHeaders
  cases hb : r.httpBody with
  | none => simp
  | some b =>
    have hne : http.CanonicalHeaderKey HeaderContentLength
        ≠ http.CanonicalHeaderKey HeaderContentType := by decide
    simp only [Header.Get_Set_of_ne _ _ _ _ hne]
    by_cases h0 : r.headers.Get HeaderContentType = []
    · simp [h0, Header.Get_Set_self]
    · simp [h0, Header.Get_Set_of_ne _ _ _ _ hne]

/-- The builder and the request that `StdRequest` produces carry the content
type of `bodyHeaders` and the stored body. -/
theorem Request.StdRequest_ContentType (lib : Lib) (r : Request) :
    (Request.StdRequest lib r).builder.headers.Get HeaderContentType
        = (Request.bodyHeaders r).Get HeaderContentType ∧
      ∀ req, (Request.StdRequest lib r).result = .ok req →
        req.Header.Get HeaderContentType = (Request.bodyHeaders r).Get HeaderContentType ∧
          req.Body = r.httpBody := by
  have hne : http.CanonicalHeaderKey (str "Cookie")
      ≠ http.CanonicalHeaderKey HeaderContentType := by decide
  unfold Request.StdRequest
  dsimp only
  cases hp : Request.composePath lib { r with headers := Request.bodyHeaders r } with
  | error e => simp
  | ok path =>
    cases hn : http.NewRequest lib r.httpVerb path r.httpBody with
    | none => simp [hn]
    | some req0 =>
      simp only [hn, Header.Get_addCookies _ _ hne, true_and]
      intro req hreq
      simp only [Except.ok.injEq] at hreq
      subst hreq
      exact ⟨Header.Get_addCookies _ _ hne _, http.NewRequest_some _ _ _ _ req0 hn⟩

/-- The headers after a chain of calls in which no `Header` call names `name`
(up to letter case) hold for `name` what they held before. -/
theorem Request.calls_Get_ContentType {α : Type} (Marshal : α → Option GoString)
    (cs : List (Call α)) :
    ∀ r : Request, (∀ x ∈ cs, ¬ Call.setsHeader HeaderContentType x) →
      (Request.calls Marshal r cs).builder.headers.Get HeaderContentType
        = r.headers.Get HeaderContentType := by
  induction cs with
  | nil => intro r _; rfl
  | cons c cs ih =>
    intro r hcs
    have hrest : ∀ x ∈ cs, ¬ Call.setsHeader HeaderContentType x :=
      fun x hx => hcs x (List.mem_cons_of_mem _ hx)
    have hc := hcs c (List.mem_cons_self _ _)
    have hstep : (Request.call Marshal r c).builder.headers.Get HeaderContentType
        = r.headers.Get HeaderContentType := by
      cases c with
      | Header key value =>
        have hk : http.CanonicalHeaderKey key ≠ http.CanonicalHeaderKey HeaderContentType := by
          intro h
          apply hc
          have h2 : http.CanonicalHeaderKey HeaderContentType = HeaderContentType := by decide
          rw [h2] at h
          exact (http.CanonicalHeaderKey_eq_ContentType_iff key).1 h
        exact Header.Get_Set_of_ne _ _ _ _ hk
      | Cookie key value => rfl
      | Query key value => rfl
      | Form key value =>
        simp only [Request.call, Request.Form]
        split <;> split <;> rfl
      | BodyJSON v =>
        simp only [Request.call, Request.BodyJSON]
        split
        · rfl
        · split <;> rfl
    rw [Request.calls]
    cases hres : (Request.call Marshal r c).result with
    | ok u => simp only [ih _ hrest, hstep]
    | error e => exact hstep


/-! ## Facts about string order and sorting -/

theorem strLE_refl (a : GoString) : strLE a a = true := by
  induction a with
  | nil => rfl
  | cons x a ih => simp [strLE, ih]

theorem strLE_total (a : GoString) : ∀ b : GoString, strLE a b = true ∨ strLE b a = true := by
  induction a with
  | nil => intro b; left; cases b <;> rfl
  | cons x a ih =>
    intro b
    cases b with
    | nil => right; rfl
    | cons y b =>
      simp only [strLE, Bool.or_eq_true, Bool.and_eq_true, decide_eq_true_eq]
      rcases lt_trichotomy x y with h | h | h
      · left; left; exact h
      · subst h
        rcases ih b with h' | h'
        · left; right; exact ⟨rfl, h'⟩
        · right; right; exact ⟨rfl, h'⟩
      · right; left; exact h

theorem strLE_trans (a : GoString) :
    ∀ b c : GoString, strLE a b = true → strLE b c = true → strLE a c = true := by
  induction a with
  | nil => intro b c _ _; cases c <;> rfl
  | cons x a ih =>
    intro b c hab hbc
    cases b with
    | nil => simp [strLE] at hab
    | cons y b =>
      cases c with
      | nil => simp [strLE] at hbc
      | cons z c =>
        simp only [strLE, Bool.or_eq_true, Bool.and_eq_true, decide_eq_true_eq] at hab hbc ⊢
        rcases hab with h1 | ⟨h1, h1'⟩
        · rcases hbc with h2 | ⟨h2, _⟩
          · left; exact lt_trans h1 h2
          · left; rw [← h2]; exact h1
        · rcases hbc with h2 | ⟨h2, h2'⟩
          · left; rw [h1]; exact h2
          · right; exact ⟨h1.trans h2, ih b c h1' h2'⟩

theorem strLE_antisymm (a : GoString) :
    ∀ b : GoString, strLE a b = true → strLE b a = true → a = b := by
  induction a with
  | nil => intro b _ hba; cases b with
    | nil => rfl
    | cons y b => simp [strLE] at hba
  | cons x a ih =>
    intro b hab hba
    cases b with
    | nil => simp [strLE] at hab
    | cons y b =>
      simp only [strLE, Bool.or_eq_true, Bool.and_eq_true, decide_eq_true_eq] at hab hba
      rcases hab with h1 | ⟨h1, h1'⟩
      · rcases hba with h2 | ⟨h2, _⟩
        · exact absurd h1 (lt_asymm h2)
        · rw [h2] at h1; exact absurd h1 (lt_irrefl _)
      · rcases hba with h2 | ⟨_, h2'⟩
        · rw [h1] at h2; exact absurd h2 (lt_irrefl _)
        · rw [h1, ih b h1' h2']

instance strLE_isTotal : IsTotal GoString (fun a b => strLE a b = true) := ⟨strLE_total⟩

instance strLE_isTrans : IsTrans GoString (fun a b => strLE a b = true) := ⟨strLE_trans⟩

instance strLE_isAntisymm : IsAntisymm GoString (fun a b => strLE a b = true) :=
  ⟨strLE_antisymm⟩

theorem sortStrings_perm (keys : List GoString) : (sortStrings keys).Perm keys :=
  List.perm_insertionSort _ keys

/-- Two lists with the same keys have the same sorted list: the outcome of
`slices.Sort` does not depend on the order in which the map hands out its keys. -/
theorem sortStrings_eq_of_perm {k₁ k₂ : List GoString} (h : k₁.Perm k₂) :
    sortStrings k₁ = sortStrings k₂ :=
  List.eq_of_perm_of_sorted
    (((sortStrings_perm k₁).trans h).trans (sortStrings_perm k₂).symm)
    (List.sorted_insertionSort _ k₁) (List.sorted_insertionSort _ k₂)


/-! ## Facts about `Encode` -/

theorem foldl_app_nonempty (segs : List GoString) : ∀ buf : GoString, buf ≠ [] →
    segs.foldl (fun buf s => (if buf.length > 0 then buf ++ [38] else buf) ++ s) buf
      = buf ++ segs.flatMap (fun x => 38 :: x) := by
  induction segs with
  | nil => intro buf _; simp
  | cons s segs ih =>
    intro buf hb
    have hlen : buf.length > 0 := List.length_pos.2 hb
    simp only [List.foldl_cons, hlen, if_true]
    rw [ih _ (by simp [hb])]
    simp

theorem foldl_app_nil (segs : List GoString) (h : ∀ s ∈ segs, s ≠ []) :
    segs.foldl (fun buf s => (if buf.length > 0 then buf ++ [38] else buf) ++ s) []
      = joinAmp segs := by
  cases segs with
  | nil => rfl
  | cons s segs =>
    simp only [List.foldl_cons, List.length_nil, gt_iff_lt, lt_self_iff_false, if_false,
      List.nil_append, joinAmp]
    exact foldl_app_nonempty segs s (h s (List.mem_cons_self _ _))

theorem url.Values.encodeKey_eq (ke : GoString) (vs : List GoString) (buf : GoString) :
    url.Values.encodeKey ke vs buf
      = (vs.map (fun x => ke ++ [61] ++ QueryEscape x)).foldl
          (fun buf s => (if buf.length > 0 then buf ++ [38] else buf) ++ s) buf := by
  unfold url.Values.encodeKey
  rw [List.foldl_map]
  simp only [List.append_assoc]

theorem url.Values.foldl_encodeKey (v : url.Values) (ks : List GoString) :
    ∀ buf : GoString,
      ks.foldl (fun buf k => url.Values.encodeKey (QueryEscape k) ((v.get? k).getD []) buf) buf
        = (ks.flatMap
            (fun k => ((v.get? k).getD []).map
              (fun x => QueryEscape k ++ [61] ++ QueryEscape x))).foldl
            (fun buf s => (if buf.length > 0 then buf ++ [38] else buf) ++ s) buf := by
  induction ks with
  | nil => intro buf; rfl
  | cons k ks ih =>
    intro buf
    simp only [List.foldl_cons, List.flatMap_cons, List.foldl_append]
    rw [ih, url.Values.encodeKey_eq]

/-- `Encode` writes its entries joined by `&`. -/
theorem url.Values.Encode_eq_joinAmp (v : url.Values) :
    v.Encode = joinAmp v.segments := by
  unfold url.Values.Encode url.Values.segments
  split
  · rename_i h
    have : v = [] := List.length_eq_zero.1 h
    subst this
    rfl
  · rw [url.Values.foldl_encodeKey, foldl_app_nil]
    intro s hs
    simp only [List.mem_flatMap, List.mem_map] at hs
    obtain ⟨k, _, x, _, rfl⟩ := hs
    simp

/-! ## Facts about escaping -/

set_option maxRecDepth 100000 in
theorem url.escapeByte_query_all : ∀ c : Byte,
    (escapeByte .encodeQueryComponent c).all
      (fun b => decide (b ≠ 38 ∧ b ≠ 59 ∧ b ≠ 61 ∧ b ≠ 63)) = true := by
  decide

set_option maxRecDepth 100000 in
theorem url.escapeByte_plain : ∀ c : Byte,
    c ≠ 32 → shouldEscape c .encodeQueryComponent = false → c ≠ 37 ∧ c ≠ 43 := by
  decide

set_option maxRecDepth 100000 in
theorem url.unhex_upperhex : ∀ c : Byte,
    ishex (upperhex (c.val / 16)) = true ∧ ishex (upperhex (c.val % 16)) = true ∧
      (Fin.ofNat (unhex (upperhex (c.val / 16)) * 16 + unhex (upperhex (c.val % 16))) : Byte)
        = c := by
  decide

theorem url.QueryEscape_bytes (s : GoString) :
    ∀ b ∈ QueryEscape s, b ≠ 38 ∧ b ≠ 59 ∧ b ≠ 61 ∧ b ≠ 63 := by
  intro b hb
  simp only [QueryEscape, escape, List.mem_flatMap] at hb
  obtain ⟨c, _, hc⟩ := hb
  have := url.escapeByte_query_all c
  rw [List.all_eq_true] at this
  simpa using this b hc

theorem url.unescape_cons_plain (mode : encoding) (c : Byte) (s : GoString) (h : c ≠ 37) :
    unescape mode (c :: s)
      = match unescape mode s with
        | .ok r => .ok ((if c = 43 ∧ mode = .encodeQueryComponent then 32 else c) :: r)
        | .error e => .error e := by
  have h0 : unescape mode (c :: s)
      = if c = 37 then
          match s with
          | h1 :: h2 :: t =>
            if ishex h1 && ishex h2 then
              match unescape mode t with
              | .ok r => .ok (Fin.ofNat (unhex h1 * 16 + unhex h2) :: r)
              | .error e => .error e
            else .error (.EscapeError ((c :: s).take 3))
          | _ => .error (.EscapeError ((c :: s).take 3))
        else
          match unescape mode s with
          | .ok r => .ok ((if c = 43 ∧ mode = .encodeQueryComponent then 32 else c) :: r)
          | .error e => .error e := by
    cases s with
    | nil => rfl
    | cons a s => cases s <;> rfl
  rw [h0, if_neg h]

theorem url.unescape_cons_pct (mode : encoding) (h1 h2 : Byte) (t : GoString)
    (hx : (ishex h1 && ishex h2) = true) :
    unescape mode (37 :: h1 :: h2 :: t)
      = match unescape mode t with
        | .ok r => .ok (Fin.ofNat (unhex h1 * 16 + unhex h2) :: r)
        | .error e => .error e := by
  have h0 : unescape mode (37 :: h1 :: h2 :: t)
      = if ishex h1 && ishex h2 then
          match unescape mode t with
          | .ok r => .ok (Fin.ofNat (unhex h1 * 16 + unhex h2) :: r)
          | .error e => .error e
        else .error (.EscapeError (((37 : Byte) :: h1 :: h2 :: t).take 3)) := rfl
  rw [h0, if_pos hx]

theorem url.unescape_escapeByte (c : Byte) (rest : GoString) :
    unescape .encodeQueryComponent (escapeByte .encodeQueryComponent c ++ rest)
      = match unescape .encodeQueryComponent rest with
        | .ok r => .ok (c :: r)
        | .error e => .error e := by
  unfold escapeByte
  by_cases h1 : c = 32
  · subst h1
    simp only [true_and, if_true, List.singleton_append]
    rw [url.unescape_cons_plain _ _ _ (by decide)]
    simp
  · simp only [h1, false_and, if_false]
    by_cases h2 : shouldEscape c .encodeQueryComponent = true
    · obtain ⟨hx1, hx2, hx3⟩ := url.unhex_upperhex c
      simp only [h2, if_true, List.cons_append, List.nil_append]
      rw [url.unescape_cons_pct _ _ _ _ (by simp [hx1, hx2]), hx3]
    · rw [if_neg h2]
      simp only [List.singleton_append]
      simp only [Bool.not_eq_true] at h2
      obtain ⟨h37, h43⟩ := url.escapeByte_plain c h1 h2
      rw [url.unescape_cons_plain _ _ _ h37]
      simp [h43]

/-- Unescaping undoes escaping. -/
theorem url.QueryUnescape_QueryEscape (s : GoString) : QueryUnescape (QueryEscape s) = .ok s := by
  unfold QueryUnescape QueryEscape escape
  induction s with
  | nil => rfl
  | cons c s ih => rw [List.flatMap_cons, url.unescape_escapeByte, ih]

/-! ## Facts about maps with several values -/

theorem GoMap.keys_set {α : Type} (m : GoMap α) (k : GoString) (v : α) :
    GoMap.keys (GoMap.set m k v) = if k ∈ GoMap.keys m then GoMap.keys m else GoMap.keys m ++ [k] := by
  induction m with
  | nil => simp [GoMap.set, GoMap.keys]
  | cons e m ih =>
    obtain ⟨k', v'⟩ := e
    simp only [GoMap.keys] at ih
    by_cases h : k' = k
    · subst h; simp [GoMap.set, GoMap.keys]
    · have h' : ¬ k = k' := fun h' => h h'.symm
      simp only [GoMap.set, GoMap.keys, h, if_false, List.map_cons, ih, List.mem_cons, h',
        false_or]
      split <;> simp

theorem GoMap.nodup_keys_set {α : Type} (m : GoMap α) (k : GoString) (v : α)
    (h : (GoMap.keys m).Nodup) : (GoMap.keys (GoMap.set m k v)).Nodup := by
  rw [GoMap.keys_set]
  split
  · exact h
  · rename_i hk
    exact List.Nodup.append h (List.nodup_singleton k) (by simpa using hk)

theorem GoMap.mem_keys_set {α : Type} (m : GoMap α) (k k' : GoString) (v : α) :
    k' ∈ GoMap.keys (GoMap.set m k v) ↔ k' = k ∨ k' ∈ GoMap.keys m := by
  rw [GoMap.keys_set]
  split
  · rename_i hk
    constructor
    · exact fun h => Or.inr h
    · rintro (rfl | h)
      · exact hk
      · exact h
  · simp [or_comm]

theorem GoMap.get?_eq_none {α : Type} (m : GoMap α) (k : GoString) (h : k ∉ GoMap.keys m) :
    m.get? k = none := by
  induction m with
  | nil => rfl
  | cons e m ih =>
    obtain ⟨k', v'⟩ := e
    simp only [GoMap.keys, List.map_cons, List.mem_cons, not_or] at h
    have hne : ¬ k' = k := fun h' => h.1 h'.symm
    simp only [GoMap.get?, hne, if_false]
    exact ih h.2

theorem url.Values.get?_Add (m : url.Values) (k v k' : GoString) :
    ((m.Add k v).get? k').getD []
      = if k = k' then (m.get? k').getD [] ++ [v] else (m.get? k').getD [] := by
  unfold url.Values.Add
  by_cases h : k = k'
  · subst h; simp [GoMap.get?_set_self]
  · simp [GoMap.get?_set_of_ne _ _ _ _ h, h]

theorem url.Values.nodup_keys_Add (m : url.Values) (k v : GoString) (h : (GoMap.keys m).Nodup) :
    (GoMap.keys (m.Add k v)).Nodup :=
  GoMap.nodup_keys_set m k _ h

theorem url.Values.mem_keys_Add (m : url.Values) (k v k' : GoString) :
    k' ∈ GoMap.keys (m.Add k v) ↔ k' = k ∨ k' ∈ GoMap.keys m :=
  GoMap.mem_keys_set m k k' _

/-- `Add` adds one pair and loses none. -/
theorem pairs_Add (m : url.Values) (k v : GoString) :
    (pairs (m.Add k v)).Perm (pairs m ++ [(k, v)]) := by
  unfold url.Values.Add
  induction m with
  | nil => simp [GoMap.set, GoMap.get?, pairs]
  | cons e m ih =>
    obtain ⟨k', vs'⟩ := e
    by_cases h : k' = k
    · subst h
      simp only [GoMap.set, GoMap.get?, if_true, Option.getD_some, pairs, List.flatMap_cons,
        List.map_append, List.map_cons, List.map_nil, List.append_assoc]
      exact List.Perm.append_left _ List.perm_append_comm
    · simp only [GoMap.set, GoMap.get?, h, if_false, pairs, List.flatMap_cons,
        List.append_assoc] at ih ⊢
      exact List.Perm.append_left _ ih

/-- The pairs of a map with distinct keys, read key by key through the index
expression. -/
theorem pairs_eq_flatMap_keys (m : url.Values) (h : (GoMap.keys m).Nodup) :
    pairs m = (GoMap.keys m).flatMap (fun k => ((m.get? k).getD []).map (fun x => (k, x))) := by
  induction m with
  | nil => rfl
  | cons e m ih =>
    obtain ⟨k', vs'⟩ := e
    simp only [GoMap.keys, List.map_cons, List.nodup_cons] at h
    simp only [pairs, List.flatMap_cons, GoMap.keys, List.map_cons, GoMap.get?, if_true,
      Option.getD_some]
    congr 1
    have := ih h.2
    simp only [pairs, GoMap.keys] at this
    rw [this]
    apply List.flatMap_congr
    intro k hk
    have hne : ¬ k' = k := fun h' => h.1 (h' ▸ hk)
    simp [hne]


/-! ## Facts about `ParseQuery` -/

theorem Cut_of_not_mem (sep : Byte) (s : GoString) (h : sep ∉ s) : Cut sep s = (s, [], false) := by
  induction s with
  | nil => rfl
  | cons c s ih =>
    simp only [List.mem_cons, not_or] at h
    have hc : ¬ c = sep := fun h' => h.1 h'.symm
    simp [Cut, hc, ih h.2]

theorem Cut_append_of_not_mem (sep : Byte) (s rest : GoString) (h : sep ∉ s) :
    Cut sep (s ++ sep :: rest) = (s, rest, true) := by
  induction s with
  | nil => simp [Cut]
  | cons c s ih =>
    simp only [List.mem_cons, not_or] at h
    have hc : ¬ c = sep := fun h' => h.1 h'.symm
    simp [Cut, hc, ih h.2]

/-- A segment `key=value` written by `Encode` is read back as the pair. -/
theorem url.parseSegment_encoded (m : Values) (err : Option Error) (k v : GoString) :
    parseSegment m err (QueryEscape k ++ [61] ++ QueryEscape v) = (m.Add k v, err) := by
  have h59 : (59 : Byte) ∉ QueryEscape k ++ [61] ++ QueryEscape v := by
    intro h
    simp only [List.mem_append, List.mem_singleton] at h
    rcases h with (h | h) | h
    · exact (url.QueryEscape_bytes k _ h).2.1 rfl
    · exact absurd h (by decide)
    · exact (url.QueryEscape_bytes v _ h).2.1 rfl
  have h61 : (61 : Byte) ∉ QueryEscape k := fun h => (url.QueryEscape_bytes k _ h).2.2.1 rfl
  have hcut : Cut 61 (QueryEscape k ++ [61] ++ QueryEscape v)
      = (QueryEscape k, QueryEscape v, true) := by
    rw [List.append_assoc]
    exact Cut_append_of_not_mem 61 _ _ h61
  unfold parseSegment
  rw [if_neg h59, if_neg (by simp), hcut]
  simp only [url.QueryUnescape_QueryEscape]

theorem joinAmp_cons_cons (s s' : GoString) (t : List GoString) :
    joinAmp (s :: s' :: t) = s ++ 38 :: joinAmp (s' :: t) := by
  simp [joinAmp]

/-- The loop of `parseQuery` on segments joined by `&` handles the segments
one by one. -/
theorem url.parseQueryLoop_joinAmp (segs : List GoString) :
    (∀ s ∈ segs, (38 : Byte) ∉ s ∧ s ≠ []) →
    ∀ (fuel : Nat) (m : Values) (err : Option Error), (joinAmp segs).length ≤ fuel →
      parseQueryLoop fuel m err (joinAmp segs)
        = segs.foldl (fun st s => parseSegment st.1 st.2 s) (m, err) := by
  induction segs with
  | nil =>
    intro _ fuel m err _
    cases fuel <;> simp [parseQueryLoop, joinAmp]
  | cons s t ih =>
    intro hs fuel m err hfuel
    have hs0 := hs s (List.mem_cons_self _ _)
    have ht : ∀ x ∈ t, (38 : Byte) ∉ x ∧ x ≠ [] := fun x hx => hs x (List.mem_cons_of_mem _ hx)
    have hne : joinAmp (s :: t) ≠ [] := by
      simp [joinAmp, hs0.2]
    have hcut : Cut 38 (joinAmp (s :: t)) = (s, joinAmp t, decide (t ≠ [])) := by
      cases t with
      | nil => simp [joinAmp, Cut_of_not_mem _ _ hs0.1]
      | cons s' t' =>
        rw [joinAmp_cons_cons, Cut_append_of_not_mem _ _ _ hs0.1]
        simp
    have hlen : (joinAmp t).length < (joinAmp (s :: t)).length := by
      cases t with
      | nil =>
        simp only [joinAmp, List.length_nil, List.flatMap_nil, List.append_nil]
        exact List.length_pos.2 hs0.2
      | cons s' t' =>
        rw [joinAmp_cons_cons]
        simp
        omega
    cases fuel with
    | zero =>
      have := List.length_pos.2 hne
      omega
    | succ fuel =>
      rw [parseQueryLoop, if_neg hne, hcut]
      simp only [List.foldl_cons]
      exact ih ht fuel _ _ (by omega)

/-- The pairs of the map built by adding a list of pairs one by one. -/
theorem pairs_foldl_Add (ps : List (GoString × GoString)) : ∀ m : Values,
    (pairs (ps.foldl (fun m p => m.Add p.1 p.2) m)).Perm (pairs m ++ ps) := by
  induction ps with
  | nil => intro m; simp
  | cons p ps ih =>
    intro m
    simp only [List.foldl_cons]
    refine (ih _).trans ?_
    refine ((pairs_Add m p.1 p.2).append_right ps).trans ?_
    simp

theorem url.Values.segments_eq (v : Values) :
    v.segments
      = ((sortStrings (GoMap.keys v)).flatMap
          (fun k => ((v.get? k).getD []).map (fun x => (k, x)))).map
          (fun p => QueryEscape p.1 ++ [61] ++ QueryEscape p.2) := by
  unfold url.Values.segments
  rw [List.map_flatMap]
  simp only [List.map_map]
  rfl

/-- Reading back what `Encode` wrote gives no error and the same pairs. -/
theorem url.ParseQuery_Encode (v : Values) (h : (GoMap.keys v).Nodup) :
    (ParseQuery v.Encode).2 = none ∧ (pairs (ParseQuery v.Encode).1).Perm (pairs v) := by
  have hsegs : ∀ s ∈ v.segments, (38 : Byte) ∉ s ∧ s ≠ [] := by
    intro s hs
    rw [url.Values.segments_eq] at hs
    simp only [List.mem_map] at hs
    obtain ⟨p, _, rfl⟩ := hs
    refine ⟨?_, by simp⟩
    intro h38
    simp only [List.mem_append, List.mem_singleton] at h38
    rcases h38 with (h38 | h38) | h38
    · exact (url.QueryEscape_bytes _ _ h38).1 rfl
    · exact absurd h38 (by decide)
    · exact (url.QueryEscape_bytes _ _ h38).1 rfl
  have hfold : ∀ (ps : List (GoString × GoString)) (m : Values) (err : Option Error),
      (ps.map (fun p => QueryEscape p.1 ++ [61] ++ QueryEscape p.2)).foldl
          (fun st s => parseSegment st.1 st.2 s) (m, err)
        = (ps.foldl (fun m p => m.Add p.1 p.2) m, err) := by
    intro ps
    induction ps with
    | nil => intro m err; rfl
    | cons p ps ih =>
      intro m err
      simp only [List.map_cons, List.foldl_cons, url.parseSegment_encoded, ih]
  unfold ParseQuery
  rw [url.Values.Encode_eq_joinAmp, url.parseQueryLoop_joinAmp _ hsegs _ _ _ (le_refl _),
    url.Values.segments_eq, hfold]
  refine ⟨rfl, ?_⟩
  refine (pairs_foldl_Add _ _).trans ?_
  simp only [pairs, List.flatMap_nil, List.nil_append]
  have := pairs_eq_flatMap_keys v h
  simp only [pairs] at this
  rw [this]
  exact List.Perm.flatMap_right _ (sortStrings_perm _)


theorem url.parseSegment_nodup (m : Values) (err : Option Error) (key : GoString)
    (h : (GoMap.keys m).Nodup) : (GoMap.keys (parseSegment m err key).1).Nodup := by
  unfold parseSegment
  split
  · exact h
  · split
    · exact h
    · split
      · exact h
      · split
        · exact h
        · exact url.Values.nodup_keys_Add _ _ _ h

theorem url.parseQueryLoop_nodup (fuel : Nat) : ∀ (m : Values) (err : Option Error)
    (query : GoString), (GoMap.keys m).Nodup →
    (GoMap.keys (parseQueryLoop fuel m err query).1).Nodup := by
  induction fuel with
  | zero => intro m err query h; exact h
  | succ fuel ih =>
    intro m err query h
    rw [parseQueryLoop]
    split
    · exact h
    · exact ih _ _ _ (url.parseSegment_nodup _ _ _ h)

/-- The map that `ParseQuery` returns has every key once. -/
theorem url.ParseQuery_nodup (query : GoString) : (GoMap.keys (ParseQuery query).1).Nodup :=
  url.parseQueryLoop_nodup _ _ _ _ List.nodup_nil

/-! ## Facts about the merge of the explicit query -/

theorem foldl_Add_eq (k : GoString) (vs : List GoString) (q : Values) :
    vs.foldl (fun q value => q.Add k value) q
      = (vs.map (fun x => (k, x))).foldl (fun m p => m.Add p.1 p.2) q := by
  rw [List.foldl_map]

/-- The merge adds every pair of the explicit query and loses none. -/
theorem Request.pairs_addQuery (urlQuery : Values) : ∀ q : Values,
    (pairs (Request.addQuery urlQuery q)).Perm (pairs q ++ pairs urlQuery) := by
  induction urlQuery with
  | nil => intro q; simp [Request.addQuery, pairs]
  | cons e uq ih =>
    intro q
    simp only [Request.addQuery, List.foldl_cons] at ih ⊢
    refine (ih _).trans ?_
    rw [foldl_Add_eq]
    refine ((pairs_foldl_Add _ q).append_right _).trans ?_
    simp [pairs]

theorem foldl_Add_nodup (ps : List (GoString × GoString)) : ∀ m : Values,
    (GoMap.keys m).Nodup →
      (GoMap.keys (ps.foldl (fun (m : Values) p => m.Add p.1 p.2) m)).Nodup := by
  induction ps with
  | nil => intro m h; exact h
  | cons p ps ih => intro m h; exact ih _ (url.Values.nodup_keys_Add _ _ _ h)

theorem Request.addQuery_nodup (urlQuery : Values) : ∀ q : Values,
    (GoMap.keys q).Nodup → (GoMap.keys (Request.addQuery urlQuery q)).Nodup := by
  induction urlQuery with
  | nil => intro q h; exact h
  | cons e uq ih =>
    intro q h
    simp only [Request.addQuery, List.foldl_cons] at ih ⊢
    apply ih
    rw [foldl_Add_eq]
    exact foldl_Add_nodup _ _ h

/-! ## Facts about last-write-wins maps -/

theorem lastValue_append (calls : List (GoString × GoString)) (c : GoString × GoString)
    (k : GoString) :
    lastValue (calls ++ [c]) k = if c.1 = k then some c.2 else lastValue calls k := by
  unfold lastValue
  rw [List.reverse_append]
  simp only [List.reverse_cons, List.reverse_nil, List.nil_append, List.singleton_append,
    List.find?_cons]
  by_cases h : c.1 = k <;> simp [h]

theorem lastValue_isSome (calls : List (GoString × GoString)) (k : GoString)
    (h : k ∈ calls.map Prod.fst) : ∃ v, lastValue calls k = some v := by
  induction calls using List.reverseRecOn with
  | nil => simp at h
  | append_singleton cs c ih =>
    rw [lastValue_append]
    by_cases hc : c.1 = k
    · exact ⟨c.2, by simp [hc]⟩
    · simp only [hc, if_false]
      apply ih
      simp only [List.map_append, List.map_cons, List.map_nil, List.mem_append,
        List.mem_singleton] at h
      rcases h with h | h
      · exact h
      · exact absurd h.symm hc

theorem url.Values.nodup_keys_Set (m : Values) (k v : GoString) (h : (GoMap.keys m).Nodup) :
    (GoMap.keys (m.Set k v)).Nodup :=
  GoMap.nodup_keys_set m k _ h

theorem url.Values.mem_keys_Set (m : Values) (k v k' : GoString) :
    k' ∈ GoMap.keys (m.Set k v) ↔ k' = k ∨ k' ∈ GoMap.keys m :=
  GoMap.mem_keys_set m k k' _

theorem url.Values.get?_Set_self (m : Values) (k v : GoString) :
    GoMap.get? (m.Set k v) k = some [v] :=
  GoMap.get?_set_self m k _

theorem url.Values.get?_Set_of_ne (m : Values) (k v k' : GoString) (h : k ≠ k') :
    GoMap.get? (m.Set k v) k' = GoMap.get? m k' :=
  GoMap.get?_set_of_ne m k k' _ h

/-- The map built by `Set` for every call: every key once, the keys those of
the calls, and under each key the value of the last call alone. -/
theorem foldl_Set_spec (calls : List (GoString × GoString)) :
    (GoMap.keys (calls.foldl (fun m c => Values.Set m c.1 c.2) [])).Nodup ∧
      (∀ k, k ∈ GoMap.keys (calls.foldl (fun m c => Values.Set m c.1 c.2) [])
        ↔ k ∈ calls.map Prod.fst) ∧
      ∀ k, GoMap.get? (calls.foldl (fun m c => Values.Set m c.1 c.2) []) k
        = (lastValue calls k).map (fun v => [v]) := by
  induction calls using List.reverseRecOn with
  | nil => exact ⟨List.nodup_nil, fun k => by simp [GoMap.keys], fun k => rfl⟩
  | append_singleton cs c ih =>
    obtain ⟨h1, h2, h3⟩ := ih
    simp only [List.foldl_append, List.foldl_cons, List.foldl_nil]
    refine ⟨url.Values.nodup_keys_Set _ _ _ h1, fun k => ?_, fun k => ?_⟩
    · rw [url.Values.mem_keys_Set, h2]
      simp only [List.map_append, List.map_cons, List.map_nil, List.mem_append,
        List.mem_singleton]
      exact or_comm
    · rw [lastValue_append]
      by_cases hc : c.1 = k
      · subst hc; simp [url.Values.get?_Set_self]
      · simp only [hc, if_false]
        rw [url.Values.get?_Set_of_ne _ _ _ _ hc]
        exact h3 k

theorem foldl_Set_keys_perm (calls : List (GoString × GoString)) :
    (GoMap.keys (calls.foldl (fun m c => Values.Set m c.1 c.2) [])).Perm (distinctKeys calls) := by
  obtain ⟨h1, h2, _⟩ := foldl_Set_spec calls
  refine (List.perm_ext_iff_of_nodup h1 (List.nodup_dedup _)).2 (fun k => ?_)
  rw [h2, List.mem_dedup]

/-- The pairs of the map built by `Set` are the last writes. -/
theorem pairs_foldl_Set (calls : List (GoString × GoString)) :
    (pairs (calls.foldl (fun m c => Values.Set m c.1 c.2) [])).Perm (lastPairs calls) := by
  obtain ⟨h1, h2, h3⟩ := foldl_Set_spec calls
  rw [pairs_eq_flatMap_keys _ h1]
  have hmap : (GoMap.keys (calls.foldl (fun m c => Values.Set m c.1 c.2) [])).flatMap
        (fun k => ((GoMap.get? (calls.foldl (fun m c => Values.Set m c.1 c.2) []) k).getD []).map
          (fun x => (k, x)))
      = (GoMap.keys (calls.foldl (fun m c => Values.Set m c.1 c.2) [])).map
          (fun k => (k, (lastValue calls k).getD [])) := by
    rw [List.map_eq_flatMap]
    apply List.flatMap_congr
    intro k hk
    obtain ⟨v, hv⟩ := lastValue_isSome calls k ((h2 k).1 hk)
    simp [h3, hv]
  rw [hmap]
  exact (foldl_Set_keys_perm calls).map _

theorem Request.queries_urlQuery (calls : List (GoString × GoString)) : ∀ r : Request,
    (r.queries calls).urlQuery = calls.foldl (fun m c => Values.Set m c.1 c.2) r.urlQuery := by
  induction calls with
  | nil => intro r; rfl
  | cons c cs ih =>
    intro r
    simp only [Request.queries, List.foldl_cons] at ih ⊢
    rw [ih]
    rfl


/-! ## Facts about `ParseRequestURI` -/

theorem Cut_append_left (sep : Byte) (a b : GoString) (h : sep ∉ a) :
    (Cut sep (a ++ b)).2.1 = (Cut sep b).2.1 := by
  induction a with
  | nil => rfl
  | cons c a ih =>
    simp only [List.mem_cons, not_or] at h
    have hc : ¬ c = sep := fun h' => h.1 h'.symm
    simp [Cut, hc, ih h.2]

theorem url.getSchemeLoop_spec (rawURL : GoString) (s : GoString) :
    ∀ (pre scheme rest : GoString), (63 : Byte) ∉ pre →
      getSchemeLoop rawURL pre s = .ok (scheme, rest) →
      rest = rawURL ∨ (pre ++ s = scheme ++ 58 :: rest ∧ (63 : Byte) ∉ scheme) := by
  induction s with
  | nil =>
    intro pre scheme rest _ h
    simp only [getSchemeLoop, Except.ok.injEq, Prod.mk.injEq] at h
    exact Or.inl h.2.symm
  | cons c s ih =>
    intro pre scheme rest hpre h
    rw [getSchemeLoop] at h
    have hstep : ∀ (hc : c ≠ 63), getSchemeLoop rawURL (pre ++ [c]) s = .ok (scheme, rest) →
        rest = rawURL ∨ (pre ++ c :: s = scheme ++ 58 :: rest ∧ (63 : Byte) ∉ scheme) := by
      intro hc h'
      have := ih (pre ++ [c]) scheme rest
        (by simp only [List.mem_append, List.mem_singleton, not_or]; exact ⟨hpre, hc.symm⟩) h'
      simpa using this
    split at h
    · rename_i hl
      exact hstep (by intro h63; subst h63; exact absurd hl (by decide)) h
    · split at h
      · rename_i hd
        split at h
        · simp only [Except.ok.injEq, Prod.mk.injEq] at h
          exact Or.inl h.2.symm
        · refine hstep ?_ h
          intro h63
          subst h63
          revert hd
          decide
      · split at h
        · split at h
          · simp at h
          · simp only [Except.ok.injEq, Prod.mk.injEq] at h
            rename_i h58 _
            right
            rw [← h.1, ← h.2, h58]
            exact ⟨rfl, hpre⟩
        · simp only [Except.ok.injEq, Prod.mk.injEq] at h
          exact Or.inl h.2.symm

theorem url.getScheme_Cut (rawURL scheme rest : GoString)
    (h : getScheme rawURL = .ok (scheme, rest)) :
    (Cut 63 rawURL).2.1 = (Cut 63 rest).2.1 := by
  rcases url.getSchemeLoop_spec rawURL rawURL [] scheme rest (by simp) h with h1 | ⟨h1, h2⟩
  · rw [h1]
  · simp only [List.nil_append] at h1
    rw [h1, Cut_append_left _ _ _ h2]
    simp [Cut]

theorem Cut_force (rest : GoString) (h : rest.getLast? = some 63 ∧ rest.count 63 = 1) :
    (Cut 63 rest).2.1 = [] := by
  obtain ⟨h1, h2⟩ := h
  obtain ⟨init, rfl⟩ := List.getLast?_eq_some_iff.1 h1
  simp only [List.count_append, List.count_singleton_self] at h2
  have hnot : (63 : Byte) ∉ init := by
    rw [← List.count_eq_zero]
    omega
  rw [Cut_append_of_not_mem _ _ _ hnot]

theorem url.setPath_ok (u u' : URL) (p : GoString) (h : setPath u p = .ok u') :
    u'.RawQuery = u.RawQuery ∧ unescape .encodePath p = .ok u'.Path := by
  unfold setPath at h
  split at h
  · simp at h
  · rename_i path hp
    simp only [Except.ok.injEq] at h
    subst h
    exact ⟨rfl, hp⟩

/-- The raw query of a parsed URL is the text after the first `?`. -/
theorem url.ParseRequestURI_RawQuery (lib : Lib) (rawURL : GoString)
    (u : URL) (h : ParseRequestURI lib rawURL = .ok u) :
    u.RawQuery = (Cut 63 rawURL).2.1 := by
  unfold ParseRequestURI parse at h
  split at h
  · simp at h
  · split at h
    · simp at h
    · split at h
      · rename_i hstar
        simp only [Except.ok.injEq] at h
        subst h
        subst hstar
        rfl
      · split at h
        · simp at h
        · rename_i scheme rest0 hs
          have hcut := url.getScheme_Cut rawURL scheme rest0 hs
          have hraw : (if rest0.getLast? = some 63 ∧ rest0.count 63 = 1 then ([] : GoString)
              else (Cut 63 rest0).2.1) = (Cut 63 rawURL).2.1 := by
            split
            · rename_i hf
              rw [hcut, Cut_force rest0 hf]
            · exact hcut.symm
          dsimp only at h
          by_cases hf : rest0.getLast? = some 63 ∧ rest0.count 63 = 1
          · simp only [if_pos hf] at h hraw
            split_ifs at h
            all_goals first
              | (simp only [Except.ok.injEq] at h; rw [← h]; exact hraw)
              | (rw [(url.setPath_ok _ _ _ h).1]; exact hraw)
          · simp only [if_neg hf] at h hraw
            split_ifs at h
            all_goals first
              | (simp only [Except.ok.injEq] at h; rw [← h]; exact hraw)
              | (rw [(url.setPath_ok _ _ _ h).1]; exact hraw)

/-! ## Facts about `StdRequest` -/

theorem Request.composePath_bodyHeaders (lib : Lib) (r : Request)
    (h : Htest.Header) :
    Request.composePath lib { r with headers := h }
      = Request.composePath lib r := rfl

/-! ## Facts about chains of `Form` calls -/

/-- On a builder whose stored content type is empty or the form type, every
`Form` call of a chain succeeds; the form map is the one built by `Set` and
the body is its encoding. -/
theorem Request.forms_spec (calls : List (GoString × GoString)) : ∀ r : Request,
    (r.contentType = [] ∨ r.contentType = MIMEApplicationForm) →
      (r.forms calls).result = .ok () ∧
        (r.forms calls).builder.formData
          = calls.foldl (fun m c => Values.Set m c.1 c.2) r.formData ∧
        (calls ≠ [] →
          (r.forms calls).builder.httpBody = some (r.forms calls).builder.formData.Encode) := by
  induction calls with
  | nil => intro r _; exact ⟨rfl, rfl, fun h => absurd rfl h⟩
  | cons c cs ih =>
    intro r hr
    have hres : (r.Form c.1 c.2).result = .ok () := by
      unfold Request.Form
      rcases hr with hr | hr <;> simp [hr, MIMEApplicationForm_ne_nil]
    have hct := Request.Form_ok_contentType r c.1 c.2 hres
    have hfd : (r.Form c.1 c.2).builder.formData = Values.Set r.formData c.1 c.2 := by
      unfold Request.Form
      rcases hr with hr | hr <;> simp [hr, MIMEApplicationForm_ne_nil]
    have hbody : (r.Form c.1 c.2).builder.httpBody
        = some (r.Form c.1 c.2).builder.formData.Encode := by
      unfold Request.Form
      rcases hr with hr | hr <;> simp [hr, MIMEApplicationForm_ne_nil]
    have hstep : r.forms (c :: cs) = (r.Form c.1 c.2).builder.forms cs := by
      simp only [Request.forms, List.map_cons]
      rw [Request.calls]
      simp only [Request.call, hres]
    obtain ⟨h1, h2, h3⟩ := ih (r.Form c.1 c.2).builder (Or.inr hct)
    rw [hstep]
    refine ⟨h1, by rw [h2, hfd]; rfl, fun _ => ?_⟩
    cases cs with
    | nil => exact hbody
    | cons c' cs' => exact h3 (by simp)

/-- The encoding of the map built by `Set` for every call. -/
theorem Encode_foldl_Set (calls : List (GoString × GoString)) :
    (calls.foldl (fun m c => Values.Set m c.1 c.2) []).Encode = encodeLastWrites calls := by
  obtain ⟨_, h2, h3⟩ := foldl_Set_spec calls
  rw [url.Values.Encode_eq_joinAmp]
  unfold url.Values.segments encodeLastWrites
  rw [sortStrings_eq_of_perm (foldl_Set_keys_perm calls), List.map_eq_flatMap]
  congr 1
  apply List.flatMap_congr
  intro k hk
  have hk' : k ∈ calls.map Prod.fst := by
    have := (sortStrings_perm _).mem_iff.1 hk
    unfold distinctKeys at this
    exact List.mem_dedup.1 this
  obtain ⟨v, hv⟩ := lastValue_isSome calls k hk'
  simp [h3, hv]


/-! ## Facts about the merged query string -/

theorem GoMap.set_of_not_mem {α : Type} (m : GoMap α) (k : GoString) (v : α)
    (h : k ∉ GoMap.keys m) : GoMap.set m k v = m ++ [(k, v)] := by
  induction m with
  | nil => rfl
  | cons e m ih =>
    obtain ⟨k', v'⟩ := e
    simp only [GoMap.keys, List.map_cons, List.mem_cons, not_or] at h
    have hne : ¬ k' = k := fun h' => h.1 h'.symm
    simp only [GoMap.set, hne, if_false, List.cons_append]
    rw [ih h.2]

/-- With distinct keys, the map built by `Set` has one entry for each call, in
the order of the calls. -/
theorem foldl_Set_of_nodup (calls : List (GoString × GoString))
    (h : (calls.map Prod.fst).Nodup) :
    calls.foldl (fun m c => Values.Set m c.1 c.2) [] = calls.map (fun c => (c.1, [c.2])) := by
  induction calls using List.reverseRecOn with
  | nil => rfl
  | append_singleton cs c ih =>
    simp only [List.map_append, List.map_cons, List.map_nil] at h
    have hcs := (List.nodup_append.1 h).1
    have hc : c.1 ∉ cs.map Prod.fst := by
      intro hmem
      exact (List.nodup_append.1 h).2.2 hmem (List.mem_singleton_self _) 
    simp only [List.foldl_append, List.foldl_cons, List.foldl_nil, ih hcs, List.map_append,
      List.map_cons, List.map_nil]
    apply GoMap.set_of_not_mem
    simpa [GoMap.keys, List.map_map] using hc

theorem Request.addQuery_singletons (explicit : List (GoString × GoString)) : ∀ q : Values,
    Request.addQuery (explicit.map (fun c => (c.1, [c.2]))) q
      = explicit.foldl (fun (m : Values) c => m.Add c.1 c.2) q := by
  induction explicit with
  | nil => intro q; rfl
  | cons c cs ih =>
    intro q
    simp only [Request.addQuery, List.map_cons, List.foldl_cons, List.foldl_nil] at ih ⊢
    exact ih _

theorem mem_keys_foldl_Add (ps : List (GoString × GoString)) (k : GoString) : ∀ m : Values,
    k ∈ GoMap.keys (ps.foldl (fun (m : Values) c => m.Add c.1 c.2) m)
      ↔ k ∈ GoMap.keys m ∨ k ∈ ps.map Prod.fst := by
  induction ps with
  | nil => intro m; simp
  | cons p ps ih =>
    intro m
    simp only [List.foldl_cons, ih, url.Values.mem_keys_Add, List.map_cons, List.mem_cons]
    tauto

theorem get?_foldl_Add (ps : List (GoString × GoString)) (k : GoString) : ∀ m : Values,
    ((ps.foldl (fun (m : Values) c => m.Add c.1 c.2) m).get? k).getD []
      = (m.get? k).getD [] ++ (ps.filter (fun c => c.1 = k)).map Prod.snd := by
  induction ps with
  | nil => intro m; simp
  | cons p ps ih =>
    intro m
    simp only [List.foldl_cons, ih, url.Values.get?_Add]
    by_cases h : p.1 = k
    · simp [h, List.filter_cons]
    · simp [h, List.filter_cons]

/-- The encoding of the merged map is the query string the claim describes. -/
theorem Encode_foldl_Add (q0 : Values) (explicit : List (GoString × GoString))
    (h0 : (GoMap.keys q0).Nodup) :
    (explicit.foldl (fun (m : Values) c => m.Add c.1 c.2) q0).Encode
      = mergedQuery q0 explicit := by
  rw [url.Values.Encode_eq_joinAmp]
  unfold url.Values.segments mergedQuery
  have hperm : (GoMap.keys (explicit.foldl (fun (m : Values) c => m.Add c.1 c.2) q0)).Perm
      (GoMap.keys q0 ++ explicit.map Prod.fst).dedup := by
    refine (List.perm_ext_iff_of_nodup (foldl_Add_nodup _ _ h0) (List.nodup_dedup _)).2
      (fun k => ?_)
    rw [mem_keys_foldl_Add, List.mem_dedup, List.mem_append]
  rw [sortStrings_eq_of_perm hperm]
  congr 1
  apply List.flatMap_congr
  intro k _
  rw [get?_foldl_Add]


/-! ## Facts about the headers of the assembled request -/

theorem Header.get?_AddCookie (h : Header) (name value key : GoString)
    (hk : http.CanonicalHeaderKey (str "Cookie") ≠ key) :
    GoMap.get? (http.AddCookie h name value) key = GoMap.get? h key := by
  unfold http.AddCookie
  dsimp only
  split <;> exact GoMap.get?_set_of_ne _ _ _ _ hk

theorem Header.get?_addCookies (cookies : GoMap GoString) (key : GoString)
    (hk : http.CanonicalHeaderKey (str "Cookie") ≠ key) :
    ∀ h : Header, GoMap.get? (Request.addCookies cookies h) key = GoMap.get? h key := by
  induction cookies with
  | nil => intro h; rfl
  | cons c cookies ih =>
    intro h
    simp only [Request.addCookies, List.foldl_cons] at ih ⊢
    rw [ih, Header.get?_AddCookie _ _ _ _ hk]

/-- What `StdRequest` returns when it succeeds: the headers of the request and
of the builder are those of `bodyHeaders` with the cookies added, and the body
is the stored body. -/
theorem Request.StdRequest_ok (lib : Lib) (r : Request)
    (req : http.Request) (h : (Request.StdRequest lib r).result = .ok req) :
    req.Header = Request.addCookies r.cookies (Request.bodyHeaders r) ∧
      req.Body = r.httpBody ∧
      (Request.StdRequest lib r).builder
        = { r with headers := Request.addCookies r.cookies (Request.bodyHeaders r) } := by
  unfold Request.StdRequest at h ⊢
  dsimp only at h ⊢
  cases hp : Request.composePath lib { r with headers := Request.bodyHeaders r } with
  | error e => simp [hp] at h
  | ok path =>
    simp only [hp] at h ⊢
    cases hn : http.NewRequest lib r.httpVerb path r.httpBody with
    | none => simp [hn] at h
    | some req0 =>
      simp only [hn, Except.ok.injEq] at h ⊢
      subst h
      exact ⟨rfl, http.NewRequest_some _ _ _ _ req0 hn, trivial⟩


/-! ## Facts about the states a builder reaches -/

theorem GoMap.set_ne_nil {α : Type} (m : GoMap α) (k : GoString) (v : α) :
    GoMap.set m k v ≠ [] := by
  cases m with
  | nil => simp [GoMap.set]
  | cons e m =>
    obtain ⟨k', v'⟩ := e
    simp only [GoMap.set]
    split <;> simp

/-- A call that succeeds keeps the relation of the claim, together with the
fact that the form map is empty while the content type is. -/
theorem Request.call_bodyInvariant {α : Type} (Marshal : α → Option GoString) (r : Request)
    (c : Call α) (hinv : bodyInvariant r ∧ (r.contentType = [] → r.formData = []))
    (hok : (Request.call Marshal r c).result = .ok ()) :
    bodyInvariant (Request.call Marshal r c).builder ∧
      ((Request.call Marshal r c).builder.contentType = [] →
        (Request.call Marshal r c).builder.formData = []) := by
  cases c with
  | Header key value => exact hinv
  | Cookie key value => exact hinv
  | Query key value => exact hinv
  | Form key value =>
    have hct := Request.Form_ok_contentType r key value hok
    simp only [Request.call] at hok ⊢
    have hfd : (r.Form key value).builder.formData ≠ [] ∧
        (r.Form key value).builder.httpBody
          = some (r.Form key value).builder.formData.Encode := by
      unfold Request.Form at hok ⊢
      by_cases h0 : r.contentType = []
      · simp [h0, Values.Set, GoMap.set_ne_nil]
      · by_cases h1 : r.contentType = MIMEApplicationForm
        · simp [h1, MIMEApplicationForm_ne_nil, Values.Set, GoMap.set_ne_nil]
        · simp [h0, h1] at hok
    refine ⟨⟨Or.inr (Or.inl hct), ?_, fun _ => hfd, ?_⟩, ?_⟩
    · rw [hfd.2, hct]
      simp [MIMEApplicationForm_ne_nil]
    · intro hj
      rw [hct] at hj
      exact absurd hj.symm MIMEApplicationJSON_ne_Form
    · intro h0
      rw [hct] at h0
      exact absurd h0 MIMEApplicationForm_ne_nil
  | BodyJSON v =>
    simp only [Request.call] at hok ⊢
    obtain ⟨h0, b, _, hb⟩ := Request.BodyJSON_ok Marshal r v hok
    rw [hb]
    refine ⟨⟨Or.inr (Or.inr rfl), ?_, ?_, fun _ => hinv.2 h0⟩, ?_⟩
    · simp [MIMEApplicationJSON_ne_nil]
    · intro hj
      exact absurd hj MIMEApplicationJSON_ne_Form
    · intro hj
      exact absurd hj MIMEApplicationJSON_ne_nil

theorem Request.calls_bodyInvariant {α : Type} (Marshal : α → Option GoString)
    (cs : List (Call α)) : ∀ r : Request,
    (bodyInvariant r ∧ (r.contentType = [] → r.formData = [])) →
    (Request.calls Marshal r cs).result = .ok () →
    bodyInvariant (Request.calls Marshal r cs).builder ∧
      ((Request.calls Marshal r cs).builder.contentType = [] →
        (Request.calls Marshal r cs).builder.formData = []) := by
  induction cs with
  | nil => intro r h _; exact h
  | cons c cs ih =>
    intro r h hok
    obtain ⟨hc, heq⟩ := Request.calls_cons_ok Marshal r c cs hok
    rw [heq] at hok ⊢
    exact ih _ (Request.call_bodyInvariant Marshal r c h hc) hok


/-! ## Facts about the iteration order of a map -/

theorem GoMap.mem_of_get? {α : Type} (m : GoMap α) (k : GoString) (v : α)
    (h : m.get? k = some v) : (k, v) ∈ m := by
  induction m with
  | nil => simp [GoMap.get?] at h
  | cons e m ih =>
    obtain ⟨k', v'⟩ := e
    simp only [GoMap.get?] at h
    split at h
    · rename_i hk
      simp only [Option.some.injEq] at h
      subst hk; subst h
      exact List.mem_cons_self _ _
    · exact List.mem_cons_of_mem _ (ih h)

theorem GoMap.get?_of_mem {α : Type} (m : GoMap α) (k : GoString) (v : α)
    (hnd : (GoMap.keys m).Nodup) (h : (k, v) ∈ m) : m.get? k = some v := by
  induction m with
  | nil => simp at h
  | cons e m ih =>
    obtain ⟨k', v'⟩ := e
    simp only [GoMap.keys, List.map_cons, List.nodup_cons] at hnd
    simp only [List.mem_cons, Prod.mk.injEq] at h
    rcases h with ⟨rfl, rfl⟩ | h
    · simp [GoMap.get?]
    · have hne : ¬ k' = k := by
        intro hk
        subst hk
        exact hnd.1 (List.mem_map_of_mem Prod.fst h)
      simp only [GoMap.get?, hne, if_false]
      exact ih hnd.2 h

/-- Two iteration orders of one map with distinct keys answer every index
expression alike. -/
theorem GoMap.get?_perm {α : Type} (m₁ m₂ : GoMap α) (k : GoString) (hp : m₁.Perm m₂)
    (hnd : (GoMap.keys m₁).Nodup) : m₁.get? k = m₂.get? k := by
  have hnd₂ : (GoMap.keys m₂).Nodup := (hp.map Prod.fst).nodup_iff.1 hnd
  cases h₁ : m₁.get? k with
  | some v =>
    exact (GoMap.get?_of_mem m₂ k v hnd₂ (hp.mem_iff.1 (GoMap.mem_of_get? m₁ k v h₁))).symm
  | none =>
    cases h₂ : m₂.get? k with
    | none => rfl
    | some v =>
      have := GoMap.get?_of_mem m₁ k v hnd (hp.mem_iff.2 (GoMap.mem_of_get? m₂ k v h₂))
      rw [h₁] at this
      cases this

/-- The encoding of a map is fixed by its keys and by what it holds under each
key. -/
theorem url.Values.Encode_congr (m₁ m₂ : Values) (hk : (GoMap.keys m₁).Perm (GoMap.keys m₂))
    (hv : ∀ k, (m₁.get? k).getD [] = (m₂.get? k).getD []) : m₁.Encode = m₂.Encode := by
  rw [url.Values.Encode_eq_joinAmp, url.Values.Encode_eq_joinAmp]
  unfold url.Values.segments
  rw [sortStrings_eq_of_perm hk]
  congr 1
  apply List.flatMap_congr
  intro k _
  rw [hv k]

theorem Request.addQuery_eq_foldl_pairs (urlQuery : Values) : ∀ q : Values,
    Request.addQuery urlQuery q = (pairs urlQuery).foldl (fun (m : Values) p => m.Add p.1 p.2) q := by
  induction urlQuery with
  | nil => intro q; rfl
  | cons e uq ih =>
    intro q
    simp only [Request.addQuery, List.foldl_cons, pairs, List.flatMap_cons,
      List.foldl_append] at ih ⊢
    rw [ih, foldl_Add_eq]

theorem pairs_filter_key (m : Values) (k : GoString) (hnd : (GoMap.keys m).Nodup) :
    ((pairs m).filter (fun p => p.1 = k)).map Prod.snd = (m.get? k).getD [] := by
  induction m with
  | nil => rfl
  | cons e m ih =>
    obtain ⟨k', vs⟩ := e
    simp only [GoMap.keys, List.map_cons, List.nodup_cons] at hnd
    have ih' := ih hnd.2
    simp only [pairs, List.flatMap_cons, List.filter_append, List.map_append] at ih' ⊢
    by_cases hk : k' = k
    · subst hk
      have hnone : GoMap.get? m k' = none := GoMap.get?_eq_none m k' hnd.1
      rw [ih', hnone]
      simp [GoMap.get?, List.filter_map, Function.comp_def]
    · rw [ih']
      simp [GoMap.get?, hk, List.filter_map, Function.comp_def]

/-- The merged map does not depend on the order in which the explicit query
hands out its keys: same keys, and the same values under each key. -/
theorem Request.addQuery_perm (uq₁ uq₂ q : Values) (hp : uq₁.Perm uq₂)
    (hnd : (GoMap.keys uq₁).Nodup) (hq : (GoMap.keys q).Nodup) :
    (GoMap.keys (Request.addQuery uq₁ q)).Perm (GoMap.keys (Request.addQuery uq₂ q)) ∧
      ∀ k, ((Request.addQuery uq₁ q).get? k).getD []
        = ((Request.addQuery uq₂ q).get? k).getD [] := by
  have hnd₂ : (GoMap.keys uq₂).Nodup := (hp.map Prod.fst).nodup_iff.1 hnd
  have hpp : (pairs uq₁).Perm (pairs uq₂) := List.Perm.flatMap_right _ hp
  constructor
  · refine (List.perm_ext_iff_of_nodup (Request.addQuery_nodup _ _ hq)
      (Request.addQuery_nodup _ _ hq)).2 (fun k => ?_)
    rw [Request.addQuery_eq_foldl_pairs, Request.addQuery_eq_foldl_pairs, mem_keys_foldl_Add,
      mem_keys_foldl_Add, (hpp.map Prod.fst).mem_iff]
  · intro k
    rw [Request.addQuery_eq_foldl_pairs, Request.addQuery_eq_foldl_pairs, get?_foldl_Add,
      get?_foldl_Add, pairs_filter_key _ _ hnd, pairs_filter_key _ _ hnd₂,
      GoMap.get?_perm uq₁ uq₂ k hp hnd]

/-- The result of `StdRequest` in terms of the composed path. -/
theorem Request.StdRequest_result (lib : Lib) (r : Request) :
    (Request.StdRequest lib r).result
      = match Request.composePath lib r with
        | .error e => .error e
        | .ok path =>
          match http.NewRequest lib r.httpVerb path r.httpBody with
          | none => .error .newRequestPanic
          | some req =>
            .ok { req with Header := Request.addCookies r.cookies (Request.bodyHeaders r),
                           RemoteAddr := str "0.0.0.0:3000" } := by
  unfold Request.StdRequest
  dsimp only
  rw [Request.composePath_bodyHeaders]
  cases Request.composePath lib r with
  | error e => rfl
  | ok path =>
    dsimp only
    cases http.NewRequest lib r.httpVerb path r.httpBody <;> rfl


/-! ## Facts about repeated assembly -/

theorem GoMap.set_of_get? {α : Type} (m : GoMap α) (k : GoString) (v : α)
    (h : m.get? k = some v) : GoMap.set m k v = m := by
  induction m with
  | nil => simp [GoMap.get?] at h
  | cons e m ih =>
    obtain ⟨k', v'⟩ := e
    simp only [GoMap.get?] at h
    by_cases hk : k' = k
    · simp only [hk, if_true, Option.some.injEq] at h
      simp [GoMap.set, hk, h]
    · simp only [hk, if_false] at h
      simp [GoMap.set, hk, ih h]

theorem Request.bodyHeaders_some (r : Request) (b : GoString) (hb : r.httpBody = some b) :
    Request.bodyHeaders r
      = if (r.headers.Set HeaderContentLength (Itoa b.length)).Get HeaderContentType = [] then
          (r.headers.Set HeaderContentLength (Itoa b.length)).Set HeaderContentType r.contentType
        else r.headers.Set HeaderContentLength (Itoa b.length) := by
  simp [Request.bodyHeaders, hb]

/-- Writing the headers of the body a second time changes nothing. -/
theorem Request.bodyHeaders_idem (r : Request) :
    Request.bodyHeaders { r with headers := Request.bodyHeaders r } = Request.bodyHeaders r := by
  have hne : http.CanonicalHeaderKey HeaderContentType
      ≠ http.CanonicalHeaderKey HeaderContentLength := by decide
  rcases Option.eq_none_or_eq_some r.httpBody with hb | ⟨b, hb⟩
  · simp [Request.bodyHeaders, hb]
  · have hset : ∀ h : Htest.Header,
        GoMap.get? h (http.CanonicalHeaderKey HeaderContentLength) = some [Itoa b.length] →
        h.Set HeaderContentLength (Itoa b.length) = h := by
      intro h hh
      exact GoMap.set_of_get? _ _ _ hh
    have h1 : GoMap.get? (r.headers.Set HeaderContentLength (Itoa b.length))
        (http.CanonicalHeaderKey HeaderContentLength) = some [Itoa b.length] :=
      GoMap.get?_set_self _ _ _
    by_cases hct : (r.headers.Set HeaderContentLength (Itoa b.length)).Get HeaderContentType = []
    · have hH : Request.bodyHeaders r
          = (r.headers.Set HeaderContentLength (Itoa b.length)).Set HeaderContentType
              r.contentType := by
        simp [Request.bodyHeaders, hb, hct]
      have h2 : GoMap.get? (Request.bodyHeaders r) (http.CanonicalHeaderKey HeaderContentLength)
          = some [Itoa b.length] := by
        rw [hH, Header.Set, GoMap.get?_set_of_ne _ _ _ _ hne]
        exact h1
      have h3 : GoMap.get? (Request.bodyHeaders r) (http.CanonicalHeaderKey HeaderContentType)
          = some [r.contentType] := by
        rw [hH]
        exact GoMap.get?_set_self _ _ _
      have h4 : (Request.bodyHeaders r).Set HeaderContentType r.contentType
          = Request.bodyHeaders r := GoMap.set_of_get? _ _ _ h3
      rw [Request.bodyHeaders_some { r with headers := Request.bodyHeaders r } b hb]
      dsimp only
      rw [hset _ h2, h4, ite_self]
    · have hH : Request.bodyHeaders r = r.headers.Set HeaderContentLength (Itoa b.length) := by
        simp [Request.bodyHeaders, hb, hct]
      rw [Request.bodyHeaders_some { r with headers := Request.bodyHeaders r } b hb]
      dsimp only
      rw [hH, hset _ h1, if_neg hct]

/-- The builder that `StdRequest` leaves when no cookie is configured. -/
theorem Request.StdRequest_builder_no_cookies (lib : Lib) (r : Request)
    (h : r.cookies = []) :
    (Request.StdRequest lib r).builder
      = { r with headers := Request.bodyHeaders r } := by
  unfold Request.StdRequest
  dsimp only
  cases Request.composePath lib { r with headers := Request.bodyHeaders r } with
  | error e => rfl
  | ok path =>
    dsimp only
    cases http.NewRequest lib r.httpVerb path r.httpBody with
    | none => rfl
    | some req => simp [h, Request.addCookies]

/-- The headers of the builder that `StdRequest` leaves differ from those
before at most under `Content-Length`, `Content-Type` and `Cookie`. -/
theorem Request.StdRequest_builder_headers (lib : Lib) (r : Request)
    (k : GoString) (h1 : http.CanonicalHeaderKey HeaderContentLength ≠ k)
    (h2 : http.CanonicalHeaderKey HeaderContentType ≠ k)
    (h3 : http.CanonicalHeaderKey (str "Cookie") ≠ k) :
    GoMap.get? (Request.StdRequest lib r).builder.headers k = GoMap.get? r.headers k := by
  have hb : GoMap.get? (Request.bodyHeaders r) k = GoMap.get? r.headers k := by
    unfold Request.bodyHeaders
    cases r.httpBody with
    | none => rfl
    | some b =>
      dsimp only
      split
      · rw [Header.Set, GoMap.get?_set_of_ne _ _ _ _ h2, Header.Set,
          GoMap.get?_set_of_ne _ _ _ _ h1]
      · rw [Header.Set, GoMap.get?_set_of_ne _ _ _ _ h1]
  unfold Request.StdRequest
  dsimp only
  cases Request.composePath lib { r with headers := Request.bodyHeaders r } with
  | error e => exact hb
  | ok path =>
    dsimp only
    cases http.NewRequest lib r.httpVerb path r.httpBody with
    | none => exact hb
    | some req =>
      dsimp only
      rw [Header.get?_addCookies _ _ h3]
      exact hb


/-! ## Facts about cookies -/

set_option maxRecDepth 100000 in
theorem http.validHeaderFieldByte_not_newline : ∀ b : Byte,
    http.validHeaderFieldByte b = true → ¬ (b = 10 ∨ b = 13) := by
  decide

theorem http.sanitizeCookieName_valid (n : GoString) (h : validCookieName n) :
    http.sanitizeCookieName n = n := by
  unfold http.sanitizeCookieName
  have hall := h.2
  rw [List.all_eq_true] at hall
  conv_rhs => rw [← List.map_id n]
  apply List.map_congr_left
  intro b hb
  simp [http.validHeaderFieldByte_not_newline b (hall b hb)]

theorem http.sanitizeCookieValue_valid (v : GoString) (h : validCookieValue v) :
    http.sanitizeCookieValue v = v := by
  unfold validCookieValue at h
  rw [List.all_eq_true] at h
  have hfilter : v.filter http.validCookieValueByte = v := by
    rw [List.filter_eq_self]
    intro b hb
    have := h b hb
    simp only [Bool.and_eq_true] at this
    exact this.1.1
  have h32 : (32 : Byte) ∉ v := by
    intro hm
    have := h 32 hm
    simp at this
  have h44 : (44 : Byte) ∉ v := by
    intro hm
    have := h 44 hm
    simp at this
  unfold http.sanitizeCookieValue
  simp only [hfilter]
  split
  · rfl
  · simp [h32, h44]

/-- The `Cookie` header after the loop over the cookies: the pairs joined by
`; `, behind what the header held. -/
theorem Request.Get_addCookies_Cookie (cookies : GoMap GoString) : ∀ h : Htest.Header,
    (Request.addCookies cookies h).Get (str "Cookie")
      = if h.Get (str "Cookie") = [] then
          joinSemi (cookies.map
            (fun c => http.sanitizeCookieName c.1 ++ [61] ++ http.sanitizeCookieValue c.2))
        else
          h.Get (str "Cookie") ++ (cookies.map
            (fun c => http.sanitizeCookieName c.1 ++ [61] ++ http.sanitizeCookieValue c.2)).flatMap
              (fun x => [59, 32] ++ x) := by
  induction cookies with
  | nil =>
    intro h
    simp only [Request.addCookies, List.foldl_nil, List.map_nil, joinSemi, List.flatMap_nil,
      List.append_nil]
    split
    · rename_i h0; exact h0
    · rfl
  | cons c cookies ih =>
    intro h
    simp only [Request.addCookies, List.foldl_cons] at ih ⊢
    rw [ih]
    have hsemi : str "; " = [59, 32] := by decide
    unfold http.AddCookie
    dsimp only
    by_cases h0 : h.Get (str "Cookie") = []
    · simp [h0, Header.Get_Set_self, joinSemi]
    · simp [h0, Header.Get_Set_self, hsemi]

theorem GoMap.eq_map_keys (m : GoMap GoString) (hnd : (GoMap.keys m).Nodup) :
    m = (GoMap.keys m).map (fun k => (k, (m.get? k).getD [])) := by
  induction m with
  | nil => rfl
  | cons e m ih =>
    obtain ⟨k', v'⟩ := e
    simp only [GoMap.keys, List.map_cons, List.nodup_cons] at hnd
    simp only [GoMap.keys, List.map_cons, GoMap.get?, if_true, Option.getD_some, List.cons.injEq,
      true_and]
    conv_lhs => rw [ih hnd.2]
    simp only [GoMap.keys, List.map_map]
    apply List.map_congr_left
    intro e he
    have hne : ¬ k' = e.1 := fun hk => hnd.1 (hk ▸ List.mem_map_of_mem Prod.fst he)
    simp [hne]

/-- The cookie map built by the calls: every name once, the names those of the
calls, and under each name the value of the last call. -/
theorem foldl_set_spec (calls : List (GoString × GoString)) :
    (GoMap.keys (calls.foldl (fun (m : GoMap GoString) c => GoMap.set m c.1 c.2) [])).Nodup ∧
      (∀ k, k ∈ GoMap.keys (calls.foldl (fun (m : GoMap GoString) c => GoMap.set m c.1 c.2) [])
        ↔ k ∈ calls.map Prod.fst) ∧
      ∀ k, GoMap.get? (calls.foldl (fun (m : GoMap GoString) c => GoMap.set m c.1 c.2) []) k
        = lastValue calls k := by
  induction calls using List.reverseRecOn with
  | nil => exact ⟨List.nodup_nil, fun k => by simp [GoMap.keys], fun k => rfl⟩
  | append_singleton cs c ih =>
    obtain ⟨h1, h2, h3⟩ := ih
    simp only [List.foldl_append, List.foldl_cons, List.foldl_nil]
    refine ⟨GoMap.nodup_keys_set _ _ _ h1, fun k => ?_, fun k => ?_⟩
    · rw [GoMap.mem_keys_set, h2]
      simp only [List.map_append, List.map_cons, List.map_nil, List.mem_append,
        List.mem_singleton]
      exact or_comm
    · rw [lastValue_append]
      by_cases hc : c.1 = k
      · subst hc; simp [GoMap.get?_set_self]
      · simp only [hc, if_false]
        rw [GoMap.get?_set_of_ne _ _ _ _ hc]
        exact h3 k

/-- The cookie map holds the last writes. -/
theorem foldl_set_perm (calls : List (GoString × GoString)) :
    (calls.foldl (fun (m : GoMap GoString) c => GoMap.set m c.1 c.2) []).Perm
      (lastPairs calls) := by
  obtain ⟨h1, h2, h3⟩ := foldl_set_spec calls
  rw [GoMap.eq_map_keys _ h1]
  have hk : (GoMap.keys (calls.foldl (fun (m : GoMap GoString) c => GoMap.set m c.1 c.2)
      [])).Perm (distinctKeys calls) := by
    refine (List.perm_ext_iff_of_nodup h1 (List.nodup_dedup _)).2 (fun k => ?_)
    rw [h2, List.mem_dedup]
  simp only [h3]
  exact hk.map _

theorem Request.cookieCalls_fields (calls : List (GoString × GoString)) : ∀ r : Request,
    (r.cookieCalls calls).cookies
        = calls.foldl (fun (m : GoMap GoString) c => GoMap.set m c.1 c.2) r.cookies ∧
      (r.cookieCalls calls).headers = r.headers ∧
      (r.cookieCalls calls).httpBody = r.httpBody := by
  induction calls with
  | nil => intro r; exact ⟨rfl, rfl, rfl⟩
  | cons c cs ih =>
    intro r
    simp only [Request.cookieCalls, List.foldl_cons] at ih ⊢
    obtain ⟨h1, h2, h3⟩ := ih (r.Cookie c.1 c.2)
    exact ⟨h1, h2, h3⟩

theorem lastValue_mem (calls : List (GoString × GoString)) (k v : GoString)
    (h : lastValue calls k = some v) : (k, v) ∈ calls := by
  unfold lastValue at h
  simp only [Option.map_eq_some'] at h
  obtain ⟨c, hc, hv⟩ := h
  have hmem := List.mem_of_find?_eq_some hc
  have hk := List.find?_some hc
  simp only [decide_eq_true_eq] at hk
  rw [← hk, ← hv]
  exact List.mem_reverse.1 hmem


/-! ## Facts about paths sent as supplied -/

theorem url.unescape_path_of_no_pct (s : GoString) (h : (37 : Byte) ∉ s) :
    unescape .encodePath s = .ok s := by
  induction s with
  | nil => rfl
  | cons c s ih =>
    simp only [List.mem_cons, not_or] at h
    rw [url.unescape_cons_plain _ _ _ (fun hc => h.1 hc.symm), ih h.2]
    simp

theorem Cut_eq (sep : Byte) (s : GoString) :
    s = (Cut sep s).1 ++ (if (Cut sep s).2.2 = true then sep :: (Cut sep s).2.1 else []) := by
  induction s with
  | nil => rfl
  | cons c s ih =>
    by_cases hc : c = sep
    · simp [Cut, hc]
    · simp only [Cut, hc, if_false, List.cons_append]
      rw [← ih]

theorem Cut_fst_not_mem (sep : Byte) (s : GoString) : sep ∉ (Cut sep s).1 := by
  induction s with
  | nil => simp [Cut]
  | cons c s ih =>
    by_cases hc : c = sep
    · simp [Cut, hc]
    · simp only [Cut, hc, if_false, List.mem_cons, not_or]
      exact ⟨fun h => hc h.symm, ih⟩

theorem Cut_fst_subset (sep : Byte) (s : GoString) (b : Byte) (h : b ∈ (Cut sep s).1) :
    b ∈ s := by
  rw [Cut_eq sep s]
  exact List.mem_append_left _ h

theorem Cut_fst_force (rest : GoString) (h : rest.getLast? = some 63 ∧ rest.count 63 = 1) :
    (Cut 63 rest).1 = rest.dropLast := by
  obtain ⟨h1, h2⟩ := h
  obtain ⟨init, rfl⟩ := List.getLast?_eq_some_iff.1 h1
  simp only [List.count_append, List.count_singleton_self] at h2
  have hnot : (63 : Byte) ∉ init := by
    rw [← List.count_eq_zero]
    omega
  rw [Cut_append_of_not_mem _ _ _ hnot, List.dropLast_concat]

theorem HasPrefix_slash_iff (s : GoString) : HasPrefix s [47] = true ↔ ∃ t, s = 47 :: t := by
  cases s with
  | nil => simp [HasPrefix]
  | cons c t =>
    cases t <;> simp [HasPrefix]

theorem HasPrefix_slash_Cut (s : GoString) (h : HasPrefix s [47] = true) :
    HasPrefix (Cut 63 s).1 [47] = true := by
  obtain ⟨t, rfl⟩ := (HasPrefix_slash_iff s).1 h
  have h47 : ¬ (47 : Byte) = 63 := by decide
  rw [HasPrefix_slash_iff]
  exact ⟨(Cut 63 t).1, by simp [Cut, h47]⟩

theorem url.getScheme_slash (t : GoString) : getScheme (47 :: t) = .ok ([], 47 :: t) := by
  unfold getScheme
  rw [getSchemeLoop]
  have h1 : isLetter 47 = false := by decide
  have h2 : ¬ ((48 ≤ (47 : Byte).val ∧ (47 : Byte).val ≤ 57) ∨ (47 : Byte) = 43
      ∨ (47 : Byte) = 45 ∨ (47 : Byte) = 46) := by decide
  have h3 : ¬ (47 : Byte) = 58 := by decide
  simp only [h1, h2, h3, if_false, Bool.false_eq_true]

/-- A plain path is parsed into its two parts, kept as supplied. -/
theorem url.ParseRequestURI_plain (lib : Lib) (endpoint : GoString) (h : plainPath endpoint) :
    ∃ u, ParseRequestURI lib endpoint = .ok u ∧ u.Path = (Cut 63 endpoint).1 ∧
      u.RawQuery = (Cut 63 endpoint).2.1 := by
  obtain ⟨hpre, hctl, hpct, _⟩ := h
  obtain ⟨t, rfl⟩ := (HasPrefix_slash_iff endpoint).1 hpre
  have hP : HasPrefix (Cut 63 (47 :: t)).1 [47] = true := HasPrefix_slash_Cut _ hpre
  have hparse : ∃ u, ParseRequestURI lib (47 :: t) = .ok u ∧ u.Path = (Cut 63 (47 :: t)).1 := by
    unfold ParseRequestURI parse
    rw [hctl]
    have hne1 : ¬ (47 :: t : GoString) = [] := by simp
    have hne2 : ¬ (47 :: t : GoString) = [42] := by
      intro h42
      have : (47 : Byte) = 42 := (List.cons.inj h42).1
      revert this
      decide
    simp only [Bool.false_eq_true, if_false, hne1, hne2, url.getScheme_slash, List.map_nil]
    by_cases hf : (47 :: t : GoString).getLast? = some 63 ∧ (47 :: t : GoString).count 63 = 1
    · rw [if_pos hf, ← Cut_fst_force _ hf]
      simp only [hP, not_true_eq_false, ne_eq, not_false_eq_true, and_true, if_false, false_and]
      unfold setPath
      rw [url.unescape_path_of_no_pct _ hpct]
      exact ⟨_, rfl, rfl⟩
    · rw [if_neg hf]
      simp only [hP, not_true_eq_false, ne_eq, not_false_eq_true, and_true, if_false, false_and]
      unfold setPath
      rw [url.unescape_path_of_no_pct _ hpct]
      exact ⟨_, rfl, rfl⟩
  obtain ⟨u, hu, hpath⟩ := hparse
  exact ⟨u, hu, hpath, url.ParseRequestURI_RawQuery lib _ u hu⟩

/-! ## Facts about the request line -/

set_option maxRecDepth 100000 in
theorem http.validHeaderFieldByte_not_space : ∀ b : Byte,
    http.validHeaderFieldByte b = true → b ≠ 32 ∧ b ≠ 10 := by
  decide

theorem http.validMethod_bytes (method : GoString) (h : http.validMethod method = true) :
    ∀ b ∈ method, b ≠ 32 ∧ b ≠ 10 := by
  unfold http.validMethod at h
  simp only [Bool.and_eq_true, List.all_eq_true] at h
  exact fun b hb => http.validHeaderFieldByte_not_space b (h.2 b hb)

/-- The request line of `m target HTTP/1.0` when neither part holds a space
or a line feed: the three parts as written, followed by an empty line. -/
theorem http.ReadLine_requestLine (m target : GoString) (hm : ∀ b ∈ m, b ≠ 32 ∧ b ≠ 10)
    (ht : ∀ b ∈ target, b ≠ 32 ∧ b ≠ 10) :
    http.ReadLine (m ++ [32] ++ target ++ str " HTTP/1.0\r\n\r\n")
        = (m ++ [32] ++ target ++ str " HTTP/1.0", str "\r\n") ∧
      http.parseRequestLine (m ++ [32] ++ target ++ str " HTTP/1.0")
        = some (m, target, str "HTTP/1.0") := by
  have hin : m ++ [32] ++ target ++ str " HTTP/1.0\r\n\r\n"
      = (m ++ [32] ++ target ++ str " HTTP/1.0" ++ [13]) ++ 10 :: str "\r\n" := by
    have : str " HTTP/1.0\r\n\r\n" = str " HTTP/1.0" ++ [13] ++ 10 :: str "\r\n" := by decide
    rw [this]
    simp only [List.append_assoc]
  have h10 : (10 : Byte) ∉ m ++ [32] ++ target ++ str " HTTP/1.0" ++ [13] := by
    intro h
    simp only [List.mem_append, List.mem_singleton] at h
    rcases h with (((h | h) | h) | h) | h
    · exact (hm _ h).2 rfl
    · exact absurd h (by decide)
    · exact (ht _ h).2 rfl
    · revert h; decide
    · exact absurd h (by decide)
  have hline : http.ReadLine (m ++ [32] ++ target ++ str " HTTP/1.0\r\n\r\n")
      = (m ++ [32] ++ target ++ str " HTTP/1.0", str "\r\n") := by
    unfold http.ReadLine
    rw [hin, Cut_append_of_not_mem _ _ _ h10]
    simp only [List.getLast?_concat, if_true, List.dropLast_concat]
  have h32m : (32 : Byte) ∉ m := fun h => (hm _ h).1 rfl
  have h32t : (32 : Byte) ∉ target := fun h => (ht _ h).1 rfl
  have hcut1 : Cut 32 (m ++ [32] ++ target ++ str " HTTP/1.0")
      = (m, target ++ str " HTTP/1.0", true) := by
    rw [List.append_assoc, List.append_assoc, List.singleton_append]
    exact Cut_append_of_not_mem _ _ _ h32m
  have hcut2 : Cut 32 (target ++ str " HTTP/1.0") = (target, str "HTTP/1.0", true) := by
    have : str " HTTP/1.0" = 32 :: str "HTTP/1.0" := by decide
    rw [this]
    exact Cut_append_of_not_mem _ _ _ h32t
  refine ⟨hline, ?_⟩
  unfold http.parseRequestLine
  simp only [hcut1, hcut2, and_self, if_true]

set_option maxRecDepth 100000 in
theorem http.GET_bytes : ∀ b ∈ str "GET", b ≠ 32 ∧ b ≠ 10 := by
  decide

/-- The request that `httptest.NewRequest` reads when neither the method nor
the target holds a space or a line feed: the request URI is the target. -/
theorem http.NewRequest_plain (lib : Lib) (method target : GoString) (body : Option GoString)
    (hm : ∀ b ∈ method, b ≠ 32 ∧ b ≠ 10) (ht : ∀ b ∈ target, b ≠ 32 ∧ b ≠ 10) :
    http.NewRequest lib method target body
      = if http.validMethod (if method = [] then str "GET" else method) = true
            ∧ (ParseRequestURI lib
                (if (if method = [] then str "GET" else method) = str "CONNECT"
                    ∧ ¬ HasPrefix target [47] = true
                  then str "http://" ++ target else target)).toBool = true then
          some { Method := if method = [] then str "GET" else method, RequestURI := target,
                 Header := [], Body := body, RemoteAddr := str "192.0.2.1:1234" }
        else none := by
  have hm' : ∀ b ∈ (if method = [] then str "GET" else method), b ≠ 32 ∧ b ≠ 10 := by
    split
    · exact http.GET_bytes
    · exact hm
  obtain ⟨hline, hparse⟩ := http.ReadLine_requestLine _ target hm' ht
  have hvers : http.ParseHTTPVersion (str "HTTP/1.0") = true := by decide
  have htail : (http.ReadLine (str "\r\n")).1 = [] := by decide
  unfold http.NewRequest
  simp only [hline, hparse, hvers, htail, true_or, and_true, true_and]

set_option maxRecDepth 100000 in
theorem url.escapeByte_query_plain : ∀ c : Byte,
    (escapeByte .encodeQueryComponent c).all
      (fun b => decide (32 < b.val ∧ b.val < 127)) = true := by
  decide

theorem url.QueryEscape_plain (s : GoString) : ∀ b ∈ QueryEscape s, 32 < b.val ∧ b.val < 127 := by
  intro b hb
  simp only [QueryEscape, escape, List.mem_flatMap] at hb
  obtain ⟨c, _, hc⟩ := hb
  have := url.escapeByte_query_plain c
  rw [List.all_eq_true] at this
  simpa using this b hc

theorem mem_joinAmp (segs : List GoString) (b : Byte) (h : b ∈ joinAmp segs) :
    b = 38 ∨ ∃ s ∈ segs, b ∈ s := by
  cases segs with
  | nil => simp [joinAmp] at h
  | cons s t =>
    simp only [joinAmp, List.mem_append, List.mem_flatMap, List.mem_cons] at h
    rcases h with h | ⟨x, hx, h | h⟩
    · exact Or.inr ⟨s, List.mem_cons_self _ _, h⟩
    · exact Or.inl h
    · exact Or.inr ⟨x, List.mem_cons_of_mem _ hx, h⟩

/-- What `Encode` writes holds no space and no control byte. -/
theorem url.Values.Encode_plain (v : Values) : ∀ b ∈ v.Encode, 32 < b.val ∧ b.val < 127 := by
  intro b hb
  rw [url.Values.Encode_eq_joinAmp] at hb
  rcases mem_joinAmp _ b hb with rfl | ⟨s, hs, hbs⟩
  · decide
  · rw [url.Values.segments_eq] at hs
    simp only [List.mem_map] at hs
    obtain ⟨p, _, rfl⟩ := hs
    simp only [List.mem_append, List.mem_singleton] at hbs
    rcases hbs with (h | h) | h
    · exact url.QueryEscape_plain _ b h
    · subst h; decide
    · exact url.QueryEscape_plain _ b h

theorem stringContainsCTLByte_false (s : GoString) :
    stringContainsCTLByte s = false ↔ ∀ b ∈ s, 32 ≤ b.val ∧ b.val ≠ 127 := by
  unfold stringContainsCTLByte
  rw [List.any_eq_false]
  constructor
  · intro h b hb
    have := h b hb
    simp only [Bool.or_eq_true, decide_eq_true_eq, not_or, not_lt] at this
    exact this
  · intro h b hb
    have := h b hb
    simp only [Bool.or_eq_true, decide_eq_true_eq, not_or, not_lt]
    exact this

theorem plainPath_bytes (endpoint : GoString) (h : plainPath endpoint)
    (h32 : (32 : Byte) ∉ endpoint) : ∀ b ∈ endpoint, b ≠ 32 ∧ b ≠ 10 := by
  intro b hb
  have := (stringContainsCTLByte_false endpoint).1 h.2.1 b hb
  refine ⟨fun hb32 => h32 (hb32 ▸ hb), fun hb10 => ?_⟩
  subst hb10
  exact absurd this.1 (by decide)

/-- The target that the composer writes for a plain path is a plain path with
no space, and its part before the first `?` is that of the path. -/
theorem plainPath_target (endpoint enc : GoString) (h : plainPath endpoint)
    (henc : ∀ b ∈ enc, 32 < b.val ∧ b.val < 127) :
    plainPath ((Cut 63 endpoint).1 ++ [63] ++ enc) ∧
      (∀ b ∈ (Cut 63 endpoint).1 ++ [63] ++ enc, b ≠ 32 ∧ b ≠ 10) ∧
      Cut 63 ((Cut 63 endpoint).1 ++ [63] ++ enc) = ((Cut 63 endpoint).1, enc, true) := by
  obtain ⟨hpre, hctl, hpct, hsp⟩ := h
  have hcut : Cut 63 ((Cut 63 endpoint).1 ++ [63] ++ enc) = ((Cut 63 endpoint).1, enc, true) := by
    rw [List.append_assoc, List.singleton_append]
    exact Cut_append_of_not_mem _ _ _ (Cut_fst_not_mem 63 endpoint)
  have hP := (stringContainsCTLByte_false endpoint).1 hctl
  have hall : ∀ b ∈ (Cut 63 endpoint).1 ++ [63] ++ enc, 32 ≤ b.val ∧ b.val ≠ 127 ∧ b ≠ 32 := by
    intro b hb
    simp only [List.mem_append, List.mem_singleton] at hb
    rcases hb with (hb | hb) | hb
    · have := hP b (Cut_fst_subset _ _ _ hb)
      exact ⟨this.1, this.2, fun h32 => hsp (h32 ▸ hb)⟩
    · subst hb; decide
    · have := henc b hb
      refine ⟨by omega, by omega, fun h32 => ?_⟩
      subst h32
      exact absurd this.1 (by decide)
  refine ⟨⟨?_, ?_, ?_, ?_⟩, ?_, hcut⟩
  · obtain ⟨t, ht⟩ := (HasPrefix_slash_iff _).1 (HasPrefix_slash_Cut endpoint hpre)
    rw [HasPrefix_slash_iff, ht]
    exact ⟨t ++ 63 :: enc, by simp⟩
  · exact (stringContainsCTLByte_false _).2 (fun b hb => ⟨(hall b hb).1, (hall b hb).2.1⟩)
  · rw [hcut]; exact hpct
  · rw [hcut]; exact hsp
  · intro b hb
    refine ⟨(hall b hb).2.2, fun h10 => ?_⟩
    subst h10
    exact absurd (hall _ hb).1 (by decide)

/-- `StdRequest` returns a request for a composed target that is a plain path
with no space, when the verb is empty or a token; the request URI is the
target. -/
theorem Request.StdRequest_plain (lib : Lib) (r : Request) (target : GoString)
    (hc : Request.composePath lib r = .ok target) (hplain : plainPath target)
    (hbytes : ∀ b ∈ target, b ≠ 32 ∧ b ≠ 10)
    (hverb : http.validMethod (if r.httpVerb = [] then str "GET" else r.httpVerb) = true) :
    ∃ req, (Request.StdRequest lib r).result = .ok req ∧ req.RequestURI = target := by
  have hm : ∀ b ∈ r.httpVerb, b ≠ 32 ∧ b ≠ 10 := by
    intro b hb
    have hne : ¬ r.httpVerb = [] := List.ne_nil_of_mem hb
    rw [if_neg hne] at hverb
    exact http.validMethod_bytes _ hverb b hb
  obtain ⟨u, hu, _, _⟩ := url.ParseRequestURI_plain lib target hplain
  rw [Request.StdRequest_result, hc]
  dsimp only
  rw [http.NewRequest_plain lib _ _ _ hm hbytes]
  have hraw : (if (if r.httpVerb = [] then str "GET" else r.httpVerb) = str "CONNECT"
      ∧ ¬ HasPrefix target [47] = true then str "http://" ++ target else target) = target := by
    rw [if_neg]
    intro h
    exact h.2 hplain.1
  rw [hraw, hu]
  simp only [hverb, Except.toBool, and_self, if_true]
  exact ⟨_, rfl, rfl⟩

/-- A request that `StdRequest` returns has the composed target as its request
URI when neither the verb nor the target holds a space or a line feed. -/
theorem Request.StdRequest_RequestURI (lib : Lib) (r : Request) (target : GoString)
    (req : http.Request) (hc : Request.composePath lib r = .ok target)
    (hm : ∀ b ∈ r.httpVerb, b ≠ 32 ∧ b ≠ 10) (hbytes : ∀ b ∈ target, b ≠ 32 ∧ b ≠ 10)
    (h : (Request.StdRequest lib r).result = .ok req) : req.RequestURI = target := by
  rw [Request.StdRequest_result, hc] at h
  dsimp only at h
  cases hn : http.NewRequest lib r.httpVerb target r.httpBody with
  | none => rw [hn] at h; simp at h
  | some req0 =>
    rw [hn] at h
    simp only [Except.ok.injEq] at h
    subst h
    rw [http.NewRequest_plain lib _ _ _ hm hbytes] at hn
    split_ifs at hn
    all_goals (simp only [Option.some.injEq] at hn; rw [← hn])

/-! ## Facts about the composed target -/

/-- The target composed for a path that the parser accepts with a well-formed
query: the path itself when no `Query` call was made, and otherwise the parsed
path, `?`, and the encoding of the merged map. -/
theorem Request.composePath_queries (lib : Lib) (endpoint verb : GoString) (u : URL)
    (q0 : Values) (calls : List (GoString × GoString))
    (hu : ParseRequestURI lib endpoint = .ok u) (hq : ParseQuery u.RawQuery = (q0, none)) :
    Request.composePath lib { New.queries calls with httpVerb := verb, endpoint := endpoint }
      = .ok (if calls = [] then endpoint
          else u.Path ++ [63] ++ (Request.addQuery (New.queries calls).urlQuery q0).Encode) := by
  cases calls with
  | nil => rfl
  | cons c cs =>
    have hlen : (New.queries (c :: cs)).urlQuery.length > 0 := by
      rw [Request.queries_urlQuery]
      apply List.length_pos.2
      intro h0
      have := (foldl_Set_spec (c :: cs)).2.1 c.1
      rw [show New.urlQuery = [] from rfl] at h0
      rw [h0] at this
      simp [GoMap.keys] at this
    unfold Request.composePath
    simp only [hlen, if_true, hu, hq]
    simp

/-- Read back, the encoding of the merged map holds the pairs of the path's
query and the last writes of the calls. -/
theorem Request.pairs_merged (q0 : Values) (calls : List (GoString × GoString))
    (hq0 : (GoMap.keys q0).Nodup) :
    (pairs (ParseQuery (Request.addQuery (New.queries calls).urlQuery q0).Encode).1).Perm
      (pairs q0 ++ lastPairs calls) := by
  have hnd := Request.addQuery_nodup (New.queries calls).urlQuery q0 hq0
  refine (url.ParseQuery_Encode _ hnd).2.trans ?_
  refine (Request.pairs_addQuery _ _).trans ?_
  rw [Request.queries_urlQuery]
  exact (pairs_foldl_Set calls).append_left _

/-! ## The claims -/

/-- C3: `Form` and `BodyJSON` exclude each other in both orders. After a
`Form(k, v)` that succeeded and any further calls that succeeded, `BodyJSON(x)`
fails and leaves the builder as it was, the content type being the one `Form`
set and, when no further `Form` call came between, the body too. After a
`BodyJSON(x)` that succeeded and any further calls that succeeded, `Form(k, v)`
fails and leaves the builder as it was, with the content type and the body that
`BodyJSON` set. -/
theorem Form_BodyJSON_exclusive {α : Type} (Marshal : α → Option GoString) (r : Request)
    (k v : GoString) (x : α) (cs : List (Call α)) :
    ((r.Form k v).result = .ok () →
      (Request.calls Marshal (r.Form k v).builder cs).result = .ok () →
      ((Request.calls Marshal (r.Form k v).builder cs).builder.BodyJSON Marshal x).result
          = .error .bodyJSONContentType ∧
        ((Request.calls Marshal (r.Form k v).builder cs).builder.BodyJSON Marshal x).builder
          = (Request.calls Marshal (r.Form k v).builder cs).builder ∧
        (Request.calls Marshal (r.Form k v).builder cs).builder.contentType
          = (r.Form k v).builder.contentType ∧
        ((∀ c ∈ cs, Call.isForm c = false) →
          (Request.calls Marshal (r.Form k v).builder cs).builder.httpBody
            = (r.Form k v).builder.httpBody)) ∧
    ((r.BodyJSON Marshal x).result = .ok () →
      (Request.calls Marshal (r.BodyJSON Marshal x).builder cs).result = .ok () →
      ((Request.calls Marshal (r.BodyJSON Marshal x).builder cs).builder.Form k v).result
          = .error .formContentType ∧
        ((Request.calls Marshal (r.BodyJSON Marshal x).builder cs).builder.Form k v).builder
          = (Request.calls Marshal (r.BodyJSON Marshal x).builder cs).builder ∧
        (Request.calls Marshal (r.BodyJSON Marshal x).builder cs).builder.contentType
          = (r.BodyJSON Marshal x).builder.contentType ∧
        (Request.calls Marshal (r.BodyJSON Marshal x).builder cs).builder.httpBody
          = (r.BodyJSON Marshal x).builder.httpBody) := by
  constructor
  · intro hf hcs
    have hct := Request.Form_ok_contentType r k v hf
    obtain ⟨h1, h2⟩ := Request.calls_of_form Marshal cs _ hct hcs
    refine ⟨?_, ?_, by rw [h1, hct], h2⟩
    · simp [Request.BodyJSON, h1, MIMEApplicationForm_ne_nil]
    · simp [Request.BodyJSON, h1, MIMEApplicationForm_ne_nil]
  · intro hj hcs
    obtain ⟨_, b, _, hb⟩ := Request.BodyJSON_ok Marshal r x hj
    have hct : (r.BodyJSON Marshal x).builder.contentType = MIMEApplicationJSON := by
      rw [hb]
    obtain ⟨h1, h2⟩ := Request.calls_of_json Marshal cs _ hct hcs
    refine ⟨?_, ?_, by rw [h1, hct], h2⟩
    · simp [Request.Form, h1, MIMEApplicationJSON_ne_nil, MIMEApplicationJSON_ne_Form]
    · simp [Request.Form, h1, MIMEApplicationJSON_ne_nil, MIMEApplicationJSON_ne_Form]

/-- C3, at a concrete input: after `Form("q", "1")` on a fresh builder,
`BodyJSON` fails, and after `BodyJSON` on a fresh builder, `Form("q", "1")`
fails. -/
theorem Form_BodyJSON_exclusive_witness :
    ((New.Form (str "q") (str "1")).builder.BodyJSON (fun _ : Unit => some (str "null")) ()).result
        = .error .bodyJSONContentType ∧
      ((New.BodyJSON (fun _ : Unit => some (str "null")) ()).builder.Form (str "q") (str "1")).result
        = .error .formContentType :=
  ⟨((Form_BodyJSON_exclusive (fun _ : Unit => some (str "null")) New (str "q") (str "1") ()
      []).1 (by decide) (by decide)).1,
    ((Form_BodyJSON_exclusive (fun _ : Unit => some (str "null")) New (str "q") (str "1") ()
      []).2 (by decide) (by decide)).1⟩

/-- C4, refuted as stated: after `Header("Content-Type", "text/plain")` on a
fresh builder, `BodyJSON` of a value that can be serialized succeeds and sets
the body. -/
theorem BodyJSON_after_Header_succeeds :
    ((New.Header (str "Content-Type") (str "text/plain")).BodyJSON
        (fun _ : Unit => some (str "null")) ()).result = .ok () ∧
      ((New.Header (str "Content-Type") (str "text/plain")).BodyJSON
        (fun _ : Unit => some (str "null")) ()).builder.httpBody = some (str "null") := by
  decide

/-- C4, amended: `BodyJSON(v)` fails with the content-type failure exactly when
the stored content type of the builder is not empty; `Header` never changes
the stored content type, so after `Header(key, c)` on a builder whose stored
content type is empty, `BodyJSON(v)` of a value that serializes to `b`
succeeds, stores `b` as the body and the JSON type as the content type. -/
theorem BodyJSON_fails_iff_contentType {α : Type} (Marshal : α → Option GoString) (r : Request)
    (key c : GoString) (v : α) :
    ((r.BodyJSON Marshal v).result = .error .bodyJSONContentType ↔ r.contentType ≠ []) ∧
      (r.Header key c).contentType = r.contentType ∧
      ∀ b, r.contentType = [] → Marshal v = some b →
        ((r.Header key c).BodyJSON Marshal v).result = .ok () ∧
          ((r.Header key c).BodyJSON Marshal v).builder.httpBody = some b ∧
          ((r.Header key c).BodyJSON Marshal v).builder.contentType = MIMEApplicationJSON := by
  refine ⟨?_, rfl, ?_⟩
  · unfold Request.BodyJSON
    by_cases h0 : r.contentType = []
    · cases hm : Marshal v <;> simp [h0]
    · simp [h0]
  · intro b h0 hm
    simp [Request.BodyJSON, Request.Header, h0, hm]

/-- C4 amended, at a concrete input. -/
theorem BodyJSON_fails_iff_contentType_witness :
    ((New.Header (str "Content-Type") (str "text/plain")).BodyJSON
        (fun _ : Unit => some (str "null")) ()).result = .ok () :=
  ((BodyJSON_fails_iff_contentType (fun _ : Unit => some (str "null")) New (str "Content-Type")
    (str "text/plain") ()).2.2 (str "null") (by decide) rfl).1

/-- C8: `Response.JSON(target)` leaves the target alone and does not fail when
the `Content-Type` of the response does not begin with `application/json`;
when it does, the target is what the decoder makes of the body and the call
fails exactly when the decoder reports an error; whenever the call does not
fail it returns the response itself. -/
theorem JSON_decodes_only_json {κ τ : Type} (Unmarshal : GoString → τ → τ × Bool)
    (r : Response κ) (target : τ) :
    (HasPrefix (r.Header.Get HeaderContentType) MIMEApplicationJSON = false →
        (r.JSON Unmarshal target).target = target ∧ (r.JSON Unmarshal target).result = .ok r) ∧
      (HasPrefix (r.Header.Get HeaderContentType) MIMEApplicationJSON = true →
        (r.JSON Unmarshal target).target = (Unmarshal r.Body target).1 ∧
          ((r.JSON Unmarshal target).result = .error .unmarshal ↔
            (Unmarshal r.Body target).2 = false) ∧
          ((r.JSON Unmarshal target).result = .ok r ↔ (Unmarshal r.Body target).2 = true)) ∧
      ∀ r', (r.JSON Unmarshal target).result = .ok r' → r' = r := by
  unfold Response.JSON
  refine ⟨fun h => by simp [h], fun h => ?_, fun r' => ?_⟩
  · cases hu : (Unmarshal r.Body target).2 <;> simp [h, hu]
  · cases h : HasPrefix (r.Header.Get HeaderContentType) MIMEApplicationJSON <;>
      cases hu : (Unmarshal r.Body target).2 <;> simp [h, hu] <;> intro h' <;> exact h'.symm

/-- C8, at concrete inputs: a `text/plain` response leaves the target `0`
alone, and an `application/json; charset=UTF-8` response is decoded. -/
theorem JSON_decodes_only_json_witness :
    ((⟨[(str "Content-Type", [str "text/plain"])], str "5", [], 200,
        ⟨str "GET", str "/", [], none, []⟩⟩ : Response Unit).JSON
        (fun (_ : GoString) (_ : Nat) => (5, true)) 0).target = 0 ∧
      ((⟨[(str "Content-Type", [str "application/json; charset=UTF-8"])], str "5", [], 200,
        ⟨str "GET", str "/", [], none, []⟩⟩ : Response Unit).JSON
        (fun (_ : GoString) (_ : Nat) => (5, true)) 0).target = 5 :=
  ⟨((JSON_decodes_only_json (fun (_ : GoString) (_ : Nat) => (5, true))
      (⟨[(str "Content-Type", [str "text/plain"])], str "5", [], 200,
        ⟨str "GET", str "/", [], none, []⟩⟩ : Response Unit) 0).1 (by decide)).1,
    ((JSON_decodes_only_json (fun (_ : GoString) (_ : Nat) => (5, true))
      (⟨[(str "Content-Type", [str "application/json; charset=UTF-8"])], str "5", [], 200,
        ⟨str "GET", str "/", [], none, []⟩⟩ : Response Unit) 0).2.1 (by decide)).1⟩

/-- C10: `ExpectCode(expected)` fails exactly when the status code differs
from `expected`; when the two are equal it returns the response itself, and
when they differ the failure text holds the expected code, the actual code and
the whole body. -/
theorem ExpectCode_fails_iff {κ : Type} (r : Response κ) (expected : Int) :
    ((∃ f, r.ExpectCode expected = .error f) ↔ r.StatusCode ≠ expected) ∧
      (r.StatusCode = expected → r.ExpectCode expected = .ok r) ∧
      (r.StatusCode ≠ expected → ∃ error messages,
        r.ExpectCode expected = .error (.expectCode error messages) ∧
          Itoa expected <:+: error ∧ Itoa r.StatusCode <:+: error ∧
          Itoa expected <:+: messages ∧ r.BodyString <:+: messages) := by
  unfold Response.ExpectCode
  refine ⟨?_, fun h => by simp [h], fun h => ?_⟩
  · by_cases h : expected = r.StatusCode
    · simp [h]
    · simp only [if_neg h]
      exact ⟨fun _ h' => h h'.symm, fun _ => ⟨_, rfl⟩⟩
  · have h' : ¬ expected = r.StatusCode := fun h' => h h'.symm
    refine ⟨_, _, if_neg h', ?_, ?_, ?_, ?_⟩
    · exact ⟨str "Not equal: \nexpected: ", str "\nactual  : " ++ Itoa r.StatusCode, by simp⟩
    · exact ⟨str "Not equal: \nexpected: " ++ Itoa expected ++ str "\nactual  : ", [], by simp⟩
    · exact ⟨str "expecting http response status code ", str ", body: " ++ r.BodyString,
        by simp⟩
    · exact ⟨str "expecting http response status code " ++ Itoa expected ++ str ", body: ", [],
        by simp⟩

/-- C10, at a concrete input: `ExpectCode(200)` on a response with status 404
and body `not found` fails with a text that holds `200`, `404` and the body. -/
theorem ExpectCode_fails_iff_witness :
    ∃ error messages,
      (⟨[], str "not found", [], 404, ⟨str "GET", str "/", [], none, []⟩⟩ :
          Response Unit).ExpectCode 200 = .error (.expectCode error messages) ∧
        str "200" <:+: error ∧ str "404" <:+: error ∧
        str "200" <:+: messages ∧ str "not found" <:+: messages :=
  (ExpectCode_fails_iff
    (⟨[], str "not found", [], 404, ⟨str "GET", str "/", [], none, []⟩⟩ : Response Unit)
    200).2.2 (by decide)


/-- C5: after `Header(name, c)` with `c` not empty and `name` equal to
`Content-Type` up to letter case, on any builder (so whatever `Form` or
`BodyJSON` calls came before), and any further calls among which no `Header`
call names `Content-Type`, the headers that `StdRequest` leaves and the
request it returns have `c` as their `Content-Type`. -/
theorem Header_ContentType_kept {α : Type} (Marshal : α → Option GoString)
    (lib : Lib) (r : Request) (name c : GoString)
    (post : List (Call α)) (verb endpoint : GoString) (hc : c ≠ [])
    (hname : eqIgnoreCase name HeaderContentType)
    (hpost : ∀ x ∈ post, ¬ Call.setsHeader HeaderContentType x) :
    (Request.StdRequest lib
        { (Request.calls Marshal (r.Header name c) post).builder with
          httpVerb := verb, endpoint := endpoint }).builder.headers.Get HeaderContentType = c ∧
      ∀ req,
        (Request.StdRequest lib
          { (Request.calls Marshal (r.Header name c) post).builder with
            httpVerb := verb, endpoint := endpoint }).result = .ok req →
        req.Header.Get HeaderContentType = c := by
  have hget : (Request.calls Marshal (r.Header name c) post).builder.headers.Get
      HeaderContentType = c := by
    rw [Request.calls_Get_ContentType Marshal post _ hpost]
    have h2 : http.CanonicalHeaderKey HeaderContentType = HeaderContentType := by decide
    exact Header.Get_Set_self _ _ _ _
      (((http.CanonicalHeaderKey_eq_ContentType_iff name).2 hname).trans h2.symm)
  have hb := Request.bodyHeaders_Get_ContentType
    { (Request.calls Marshal (r.Header name c) post).builder with
      httpVerb := verb, endpoint := endpoint }
  simp only [hget, hc, if_false, ite_self] at hb
  obtain ⟨h1, h2⟩ := Request.StdRequest_ContentType lib
    { (Request.calls Marshal (r.Header name c) post).builder with
      httpVerb := verb, endpoint := endpoint }
  exact ⟨h1.trans hb, fun req hreq => ((h2 req hreq).1).trans hb⟩

/-- C5, at a concrete input: `Header("content-type", "text/plain")` followed by
`Form("q", "1")` and `Post("/")` sends `text/plain`. -/
theorem Header_ContentType_kept_witness :
    ∃ req,
      (Request.StdRequest Lib.accepting
        { (Request.calls (fun _ : Unit => some (str "null"))
            (New.Header (str "content-type") (str "text/plain"))
            [Call.Form (str "q") (str "1")]).builder with
          httpVerb := str "POST", endpoint := str "/" }).result = .ok req ∧
      req.Header.Get HeaderContentType = str "text/plain" :=
  ⟨_, rfl,
    (Header_ContentType_kept (fun _ : Unit => some (str "null")) Lib.accepting New
      (str "content-type") (str "text/plain") [Call.Form (str "q") (str "1")] (str "POST")
      (str "/") (by decide) (by decide) (by simp [Call.setsHeader])).2 _ rfl⟩

/-- C7, refuted as stated: on a builder with `Header("Content-Type",
"text/plain")`, `BodyJSON` succeeds and the request assembled by `Post("/")`
has the JSON body but the content type `text/plain`. -/
theorem BodyJSON_header_not_json :
    ((New.Header (str "Content-Type") (str "text/plain")).BodyJSON
        (fun _ : Unit => some (str "null")) ()).result = .ok () ∧
      (Request.StdRequest Lib.accepting
        { ((New.Header (str "Content-Type") (str "text/plain")).BodyJSON
            (fun _ : Unit => some (str "null")) ()).builder with
          httpVerb := str "POST", endpoint := str "/" }).result.map
          (fun req => (req.Body, req.Header.Get HeaderContentType))
        = .ok (some (str "null"), str "text/plain") := by
  decide

/-- C7, amended: after a `BodyJSON(v)` that succeeded and any further calls
that succeeded, the request that `StdRequest` returns has the JSON encoding of
`v` as its body, and its `Content-Type` is `application/json` when the headers
of the builder hold no `Content-Type` (or an empty one), and the `Content-Type`
of the builder otherwise. -/
theorem BodyJSON_request {α : Type} (Marshal : α → Option GoString)
    (lib : Lib) (r : Request) (v : α) (cs : List (Call α))
    (verb endpoint : GoString) (hv : (r.BodyJSON Marshal v).result = .ok ())
    (hcs : (Request.calls Marshal (r.BodyJSON Marshal v).builder cs).result = .ok ()) :
    (Marshal v).isSome = true ∧
      ∀ req,
        (Request.StdRequest lib
          { (Request.calls Marshal (r.BodyJSON Marshal v).builder cs).builder with
            httpVerb := verb, endpoint := endpoint }).result = .ok req →
        req.Body = Marshal v ∧
          req.Header.Get HeaderContentType
            = if (Request.calls Marshal (r.BodyJSON Marshal v).builder cs).builder.headers.Get
                  HeaderContentType = []
              then MIMEApplicationJSON
              else (Request.calls Marshal (r.BodyJSON Marshal v).builder cs).builder.headers.Get
                  HeaderContentType := by
  obtain ⟨_, b, hb, hbuild⟩ := Request.BodyJSON_ok Marshal r v hv
  have hct : (r.BodyJSON Marshal v).builder.contentType = MIMEApplicationJSON := by rw [hbuild]
  have hbody : (r.BodyJSON Marshal v).builder.httpBody = some b := by rw [hbuild]
  obtain ⟨h1, h2⟩ := Request.calls_of_json Marshal cs _ hct hcs
  refine ⟨by rw [hb]; rfl, fun req hreq => ?_⟩
  obtain ⟨h3, h4⟩ := (Request.StdRequest_ContentType lib _).2 req hreq
  rw [Request.bodyHeaders_Get_ContentType] at h3
  simp only [h1, h2, hbody] at h3 h4
  exact ⟨by rw [h4, hb], by rw [h3]; simp⟩

/-- C7 amended, at a concrete input: `BodyJSON` on a fresh builder, then
`Post("/")`, sends the encoding with the content type `application/json`. -/
theorem BodyJSON_request_witness :
    ∃ req,
      (Request.StdRequest Lib.accepting
        { (Request.calls (fun _ : Unit => some (str "null"))
            (New.BodyJSON (fun _ : Unit => some (str "null")) ()).builder []).builder with
          httpVerb := str "POST", endpoint := str "/" }).result = .ok req ∧
      req.Body = some (str "null") ∧ req.Header.Get HeaderContentType = MIMEApplicationJSON :=
  ⟨_, rfl,
    ((BodyJSON_request (fun _ : Unit => some (str "null")) Lib.accepting New () []
      (str "POST") (str "/") (by decide) (by decide)).2 _ rfl).1,
    ((BodyJSON_request (fun _ : Unit => some (str "null")) Lib.accepting New () []
      (str "POST") (str "/") (by decide) (by decide)).2 _ rfl).2⟩

/-- C9, the code at the failing input: when the handler answers with two
`Set-Cookie` lines that both parse, `Cookies()` holds the first cookie only;
and it never holds more than one cookie. -/
theorem Cookies_first_only {κ : Type} (lib : Lib)
    (ParseSetCookie : GoString → Option κ) (srv : http.Request → Recorded) (r : Request)
    (req : http.Request) (v1 v2 : GoString) (rest : List GoString) (c1 c2 : κ)
    (hreq : (Request.StdRequest lib r).result = .ok req)
    (hset : (srv req).HeaderMap.get? HeaderSetCookie = some (v1 :: v2 :: rest))
    (hv1 : v1 ≠ []) (h1 : ParseSetCookie v1 = some c1) (_h2 : ParseSetCookie v2 = some c2) :
    (∃ resp, (Request.execute lib ParseSetCookie srv r).result = .ok resp ∧
        resp.Cookies = [c1]) ∧
      ∀ (srv' : http.Request → Recorded) (r' : Request) (resp : Response κ),
        (Request.execute lib ParseSetCookie srv' r').result = .ok resp →
        resp.Cookies.length ≤ 1 := by
  constructor
  · have he : (Request.execute lib ParseSetCookie srv r).result
        = .ok { Req := req, StatusCode := (srv req).Code, Header := (srv req).HeaderMap,
                Body := (srv req).Body,
                cookies := parseCookies ParseSetCookie
                  ((srv req).HeaderMap.Get HeaderSetCookie) } := by
      simp only [Request.execute, hreq]
    refine ⟨_, he, ?_⟩
    have hk : http.CanonicalHeaderKey HeaderSetCookie = HeaderSetCookie := by decide
    simp only [Response.Cookies, Header.Get, hk, hset, parseCookies, if_neg hv1, readSetCookies]
    have hg : GoMap.get? [(HeaderSetCookie, [v1])] (str "Set-Cookie") = some [v1] := by
      simp [GoMap.get?, HeaderSetCookie]
    simp [hg, h1]
  · intro srv' r' resp hresp
    unfold Request.execute at hresp
    split at hresp
    · simp at hresp
    · simp only [Except.ok.injEq] at hresp
      subst hresp
      simp only [Response.Cookies, parseCookies]
      split
      · simp
      · have hg : ∀ x : GoString,
            GoMap.get? [(HeaderSetCookie, [x])] (str "Set-Cookie") = some [x] := by
          intro x; simp [GoMap.get?, HeaderSetCookie]
        simp only [readSetCookies, hg, Option.getD_some]
        exact (List.length_filterMap_le _ _).trans (by simp)

/-- C9, at a concrete input: a handler that answers `Get("/")` with the lines
`a=1` and `b=2` under `Set-Cookie`, both accepted by the parser. -/
theorem Cookies_first_only_witness :
    ∃ resp : Response GoString,
      (Request.execute Lib.accepting (fun line => some line)
        (fun _ => ⟨200, [(str "Set-Cookie", [str "a=1", str "b=2"])], []⟩)
        { New with httpVerb := str "GET", endpoint := str "/" }).result = .ok resp ∧
      resp.Cookies = [str "a=1"] :=
  (Cookies_first_only Lib.accepting (fun line => some line)
    (fun _ => ⟨200, [(str "Set-Cookie", [str "a=1", str "b=2"])], []⟩)
    { New with httpVerb := str "GET", endpoint := str "/" } _ (str "a=1") (str "b=2") []
    (str "a=1") (str "b=2") rfl (by decide) (by decide) rfl rfl).1


/-- C1, refuted as stated: `Query("a", "1")` and `Query("a", "2")` on a fresh
builder, then `Get("/t")`, give the target `/t?a=2`; its query holds the one
pair `a=2`, not the two pairs that were passed. -/
theorem Query_same_key_overwrites :
    (Request.StdRequest Lib.accepting
        { New.queries [(str "a", str "1"), (str "a", str "2")] with
          httpVerb := str "GET", endpoint := str "/t" }).result.map (fun req => req.RequestURI)
        = .ok (str "/t?a=2") ∧
      queryPairs (str "/t?a=2") = [(str "a", str "2")] ∧
      ¬ (queryPairs (str "/t?a=2")).Perm
          (queryPairs (str "/t") ++ [(str "a", str "1"), (str "a", str "2")]) := by
  refine ⟨by decide, by decide, fun h => ?_⟩
  have := h.length_eq
  revert this
  decide

/-- C6: every chain of `Form` calls on a fresh builder succeeds, and when it is
not empty the stored body is the URL-encoding of the mapping from each key to
the value of its last call, with one `key=value` entry for each distinct key:
read back, the body holds one pair for each distinct key, with the last value.
In particular `Form(k, v1)` followed by `Form(k, v2)` stores `k=v2` alone. -/
theorem Form_last_write_wins (calls : List (GoString × GoString)) (k v1 v2 : GoString) :
    (New.forms calls).result = .ok () ∧
      (calls ≠ [] →
        (New.forms calls).builder.httpBody = some (encodeLastWrites calls) ∧
          (pairs (ParseQuery (encodeLastWrites calls)).1).Perm (lastPairs calls)) ∧
      (New.forms [(k, v1), (k, v2)]).builder.httpBody
        = some (QueryEscape k ++ [61] ++ QueryEscape v2) ∧
      pairs (ParseQuery (QueryEscape k ++ [61] ++ QueryEscape v2)).1 = [(k, v2)] := by
  have hspec := fun cs => Request.forms_spec cs New (Or.inl rfl)
  have hbody : ∀ cs : List (GoString × GoString), cs ≠ [] →
      (New.forms cs).builder.httpBody = some (encodeLastWrites cs) := by
    intro cs hcs
    obtain ⟨_, h2, h3⟩ := hspec cs
    rw [h3 hcs, h2]
    exact congrArg some (Encode_foldl_Set cs)
  have hone : encodeLastWrites [(k, v1), (k, v2)] = QueryEscape k ++ [61] ++ QueryEscape v2 := by
    simp [encodeLastWrites, distinctKeys, lastValue, sortStrings, joinAmp]
  refine ⟨(hspec calls).1, fun hne => ⟨hbody calls hne, ?_⟩, ?_, ?_⟩
  · rw [← Encode_foldl_Set]
    exact (url.ParseQuery_Encode _ (foldl_Set_spec calls).1).2.trans (pairs_foldl_Set calls)
  · rw [hbody _ (by simp), hone]
  · have h := url.parseSegment_encoded [] none k v2
    have hseg : (38 : Byte) ∉ QueryEscape k ++ [61] ++ QueryEscape v2 ∧
        QueryEscape k ++ [61] ++ QueryEscape v2 ≠ [] := by
      refine ⟨fun h38 => ?_, by simp⟩
      simp only [List.mem_append, List.mem_singleton] at h38
      rcases h38 with (h38 | h38) | h38
      · exact (url.QueryEscape_bytes _ _ h38).1 rfl
      · exact absurd h38 (by decide)
      · exact (url.QueryEscape_bytes _ _ h38).1 rfl
    have := url.parseQueryLoop_joinAmp [QueryEscape k ++ [61] ++ QueryEscape v2]
      (by simpa using hseg) (QueryEscape k ++ [61] ++ QueryEscape v2).length [] none
      (by simp [joinAmp])
    simp only [joinAmp, List.flatMap_nil, List.append_nil, List.foldl_cons, List.foldl_nil,
      h] at this
    unfold ParseQuery
    rw [this]
    simp [Values.Add, GoMap.get?, GoMap.set, pairs]

/-- C6, at a concrete input: `Form("q", "a")`, `Form("p", "x y")` and
`Form("q", "b")` store the body `p=x+y&q=b`. -/
theorem Form_last_write_wins_witness :
    (New.forms [(str "q", str "a"), (str "p", str "x y"), (str "q", str "b")]).builder.httpBody
        = some (encodeLastWrites [(str "q", str "a"), (str "p", str "x y"), (str "q", str "b")]) ∧
      encodeLastWrites [(str "q", str "a"), (str "p", str "x y"), (str "q", str "b")]
        = str "p=x+y&q=b" :=
  ⟨((Form_last_write_wins [(str "q", str "a"), (str "p", str "x y"), (str "q", str "b")]
      [] [] []).2.1 (by decide)).1, by decide⟩


/-- C2, refuted as stated: for the path `/a%zz?x=1`, whose query `x=1` is well
formed, `Query("k", "v")` and `Get` stop the test at the path parser and no
request target is assembled; for the path `/a b?x=1` `httptest.NewRequest`
panics; and for the path `/a%3Fb?x=1` the target is `/a?b?k=v&x=1`, whose
query string is `b?k=v&x=1` and not `k=v&x=1`. -/
theorem composePath_path_not_kept :
    Request.composePath Lib.accepting
        { New.queries [(str "k", str "v")] with
          httpVerb := str "GET", endpoint := str "/a%zz?x=1" }
        = .error (.parseRequestURI (.EscapeError (str "%zz"))) ∧
      (Request.StdRequest Lib.accepting
        { New.queries [(str "k", str "v")] with
          httpVerb := str "GET", endpoint := str "/a b?x=1" }).result
        = .error .newRequestPanic ∧
      (Request.StdRequest Lib.accepting
        { New.queries [(str "k", str "v")] with
          httpVerb := str "GET", endpoint := str "/a%3Fb?x=1" }).result.map
          (fun req => (Cut 63 req.RequestURI).2.1)
        = .ok (str "b?k=v&x=1") ∧
      mergedQuery (ParseQuery (str "x=1")).1 [(str "k", str "v")] = str "k=v&x=1" := by
  decide

/-- C11, the code at the failing input: with `Query("k", "v")`, the path
`/a%20b?x=1` is composed to `/a b?k=v&x=1`, with the escape of the path part
decoded, and `httptest.NewRequest` panics on it; the claim says
`/a%20b?k=v&x=1`. With no explicit query the same path is sent unchanged. -/
theorem composePath_decodes_path :
    Request.composePath Lib.accepting
        { New.queries [(str "k", str "v")] with
          httpVerb := str "GET", endpoint := str "/a%20b?x=1" }
        = .ok (str "/a b?k=v&x=1") ∧
      (Request.StdRequest Lib.accepting
        { New.queries [(str "k", str "v")] with
          httpVerb := str "GET", endpoint := str "/a%20b?x=1" }).result
        = .error .newRequestPanic ∧
      (Cut 63 (str "/a%20b?x=1")).1 = str "/a%20b" ∧
      (Request.StdRequest Lib.accepting
        { New with httpVerb := str "GET", endpoint := str "/a%20b?x=1" }).result.map
          (fun req => req.RequestURI)
        = .ok (str "/a%20b?x=1") := by
  decide

/-- C13, refuted as stated: with no explicit query parameter, `Get` on the
path `/t?a=%zz`, whose query has a malformed escape, assembles the request
with the path unchanged. -/
theorem StdRequest_malformed_query_no_explicit :
    (ParseQuery (str "a=%zz")).2 = some (.EscapeError (str "%zz")) ∧
      (Request.StdRequest Lib.accepting
        { New with httpVerb := str "GET", endpoint := str "/t?a=%zz" }).result.map
          (fun req => req.RequestURI)
        = .ok (str "/t?a=%zz") := by
  decide

/-- C13, amended: for every path whose query portion (the text after the first
`?`) is malformed, assembling the request fails with a parse error whenever at
least one explicit query parameter is configured: with the error of the path
parser if the path is rejected, and with the error of the query otherwise. -/
theorem StdRequest_malformed_query (lib : Lib) (r : Request)
    (e : Error) (hq : (ParseQuery (Cut 63 r.endpoint).2.1).2 = some e)
    (hne : r.urlQuery ≠ []) :
    (∃ e', Request.composePath lib r = .error (.parseRequestURI e') ∧
        (Request.StdRequest lib r).result = .error (.parseRequestURI e')) ∨
      (Request.composePath lib r = .error (.parseQuery e) ∧
        (Request.StdRequest lib r).result = .error (.parseQuery e)) := by
  have hlen : r.urlQuery.length > 0 := List.length_pos.2 hne
  have hstd : ∀ f, Request.composePath lib r = .error f →
      (Request.StdRequest lib r).result = .error f := by
    intro f hf
    unfold Request.StdRequest
    dsimp only
    rw [Request.composePath_bodyHeaders, hf]
  cases hu : ParseRequestURI lib r.endpoint with
  | error e' =>
    left
    have hc : Request.composePath lib r = .error (.parseRequestURI e') := by
      unfold Request.composePath
      simp only [hlen, if_true, hu]
    exact ⟨e', hc, hstd _ hc⟩
  | ok u =>
    right
    have hraw := url.ParseRequestURI_RawQuery lib r.endpoint u hu
    have hc : Request.composePath lib r = .error (.parseQuery e) := by
      unfold Request.composePath
      simp only [hlen, if_true, hu]
      rw [hraw]
      cases hp : ParseQuery (Cut 63 r.endpoint).2.1 with
      | mk q err =>
        rw [hp] at hq
        simp only at hq
        subst hq
        rfl
    exact ⟨hc, hstd _ hc⟩

/-- C13 amended, at a concrete input: `Query("k", "v")` and `Get` on the path
`/t?a=%zz` stop the test with the error of the escape. -/
theorem StdRequest_malformed_query_witness :
    (Request.StdRequest Lib.accepting
      { New.queries [(str "k", str "v")] with
        httpVerb := str "GET", endpoint := str "/t?a=%zz" }).result
      = .error (.parseQuery (.EscapeError (str "%zz"))) :=
  ((StdRequest_malformed_query Lib.accepting
      { New.queries [(str "k", str "v")] with
        httpVerb := str "GET", endpoint := str "/t?a=%zz" }
      (.EscapeError (str "%zz")) (by decide) (by decide)).resolve_left
    (fun h => by
      obtain ⟨e', h1, _⟩ := h
      have h2 : Request.composePath Lib.accepting
          { New.queries [(str "k", str "v")] with
            httpVerb := str "GET", endpoint := str "/t?a=%zz" }
          = .error (.parseQuery (.EscapeError (str "%zz"))) := by decide
      rw [h2] at h1
      cases h1)).2


/-- C14: when the builder holds a body, the request that `StdRequest` returns
has under `Content-Length` the decimal length of the body and nothing else,
whatever `Header` had stored there, and carries the body; when the builder
holds no body, the request has under `Content-Length` what the builder had
(nothing is added) and no body. -/
theorem StdRequest_ContentLength (lib : Lib) (r : Request)
    (req : http.Request) (h : (Request.StdRequest lib r).result = .ok req) :
    (∀ b, r.httpBody = some b →
        GoMap.get? req.Header HeaderContentLength = some [Itoa b.length] ∧
          req.Header.Get HeaderContentLength = Itoa b.length ∧ req.Body = some b) ∧
      (r.httpBody = none →
        GoMap.get? req.Header HeaderContentLength = GoMap.get? r.headers HeaderContentLength ∧
          req.Body = none) := by
  obtain ⟨hh, hb, _⟩ := Request.StdRequest_ok lib r req h
  have hcl : http.CanonicalHeaderKey HeaderContentLength = HeaderContentLength := by decide
  have hck : http.CanonicalHeaderKey (str "Cookie") ≠ HeaderContentLength := by decide
  have hct : http.CanonicalHeaderKey HeaderContentType ≠ HeaderContentLength := by decide
  rw [hh, hb]
  constructor
  · intro b hbody
    have hget : GoMap.get? (Request.addCookies r.cookies (Request.bodyHeaders r))
        HeaderContentLength = some [Itoa b.length] := by
      rw [Header.get?_addCookies _ _ hck]
      unfold Request.bodyHeaders
      simp only [hbody]
      split
      · rw [Header.Set, GoMap.get?_set_of_ne _ _ _ _ hct, Header.Set, hcl,
          GoMap.get?_set_self]
      · rw [Header.Set, hcl, GoMap.get?_set_self]
    refine ⟨hget, ?_, hbody⟩
    rw [Header.Get, hcl, hget]
  · intro hbody
    refine ⟨?_, hbody⟩
    rw [Header.get?_addCookies _ _ hck]
    unfold Request.bodyHeaders
    simp only [hbody]

/-- C14, at a concrete input: `Header("content-length", "99")` and
`Form("q", "1")`, then `Post("/")`, send `Content-Length: 3`. -/
theorem StdRequest_ContentLength_witness :
    ∃ req,
      (Request.StdRequest Lib.accepting
        { ((New.Header (str "content-length") (str "99")).Form (str "q") (str "1")).builder
          with httpVerb := str "POST", endpoint := str "/" }).result = .ok req ∧
      GoMap.get? req.Header HeaderContentLength = some [str "3"] ∧
      req.Body = some (str "q=1") :=
  ⟨_, rfl,
    ((StdRequest_ContentLength Lib.accepting
      { ((New.Header (str "content-length") (str "99")).Form (str "q") (str "1")).builder
        with httpVerb := str "POST", endpoint := str "/" } _ rfl).1 (str "q=1") (by decide)).1,
    ((StdRequest_ContentLength Lib.accepting
      { ((New.Header (str "content-length") (str "99")).Form (str "q") (str "1")).builder
        with httpVerb := str "POST", endpoint := str "/" } _ rfl).1 (str "q=1")
      (by decide)).2.2⟩


/-- C16: in every builder state reached from `New` by calls to `Header`,
`Cookie`, `Query`, `Form` and `BodyJSON` that succeeded, the stored content
type is empty, the form type or the JSON type; the body is absent exactly when
the content type is empty; with the form type the form map is not empty and
the body is its URL-encoding; with the JSON type the form map is empty. -/
theorem reachable_bodyInvariant {α : Type} (Marshal : α → Option GoString)
    (cs : List (Call α)) (hok : (Request.calls Marshal New cs).result = .ok ()) :
    bodyInvariant (Request.calls Marshal New cs).builder :=
  (Request.calls_bodyInvariant Marshal cs New
    ⟨⟨Or.inl rfl, by simp [New], fun h => absurd h.symm MIMEApplicationForm_ne_nil,
      fun _ => rfl⟩, fun _ => rfl⟩ hok).1

/-- C16, at a concrete input: the state after `Header`, `Query`, `Form` and
`Cookie` calls. -/
theorem reachable_bodyInvariant_witness :
    bodyInvariant
      (Request.calls (fun _ : Unit => some (str "null")) New
        [Call.Header (str "X") (str "1"), Call.Query (str "a") (str "2"),
          Call.Form (str "q") (str "1"), Call.Cookie (str "c") (str "3")]).builder :=
  reachable_bodyInvariant (fun _ : Unit => some (str "null"))
    [Call.Header (str "X") (str "1"), Call.Query (str "a") (str "2"),
      Call.Form (str "q") (str "1"), Call.Cookie (str "c") (str "3")] (by decide)


/-- C17: the composed target does not depend on the order in which the loop
over the explicit query map meets the keys: for two iteration orders of one
map (a map has every key once), `composePath` gives the same target or the
same failure, and `StdRequest` the same request. -/
theorem composePath_iteration_order (lib : Lib) (r : Request)
    (urlQuery' : Values) (hp : r.urlQuery.Perm urlQuery')
    (hnd : (GoMap.keys r.urlQuery).Nodup) :
    Request.composePath lib { r with urlQuery := urlQuery' }
        = Request.composePath lib r ∧
      (Request.StdRequest lib { r with urlQuery := urlQuery' }).result
        = (Request.StdRequest lib r).result := by
  have hc : Request.composePath lib { r with urlQuery := urlQuery' }
      = Request.composePath lib r := by
    unfold Request.composePath
    dsimp only
    rw [← hp.length_eq]
    split
    · cases hu : ParseRequestURI lib r.endpoint with
      | error e => rfl
      | ok u =>
        dsimp only
        cases hq : ParseQuery u.RawQuery with
        | mk q err =>
          cases err with
          | some e => rfl
          | none =>
            dsimp only
            have hq0 : (GoMap.keys q).Nodup := by
              have := url.ParseQuery_nodup u.RawQuery
              rw [hq] at this
              exact this
            obtain ⟨h1, h2⟩ := Request.addQuery_perm r.urlQuery urlQuery' q hp hnd hq0
            rw [url.Values.Encode_congr _ _ h1 h2]
    · rfl
  refine ⟨hc, ?_⟩
  rw [Request.StdRequest_result, Request.StdRequest_result, hc]
  rfl

/-- C17, at a concrete input: the explicit query `b=3, a=2` met in either
order on the path `/test?a=1` gives `/test?a=1&a=2&b=3`. -/
theorem composePath_iteration_order_witness :
    Request.composePath Lib.accepting
        { ({ New.queries [(str "b", str "3"), (str "a", str "2")] with
            httpVerb := str "GET", endpoint := str "/test?a=1" } : Request) with
          urlQuery := [(str "a", [str "2"]), (str "b", [str "3"])] }
      = Request.composePath Lib.accepting
        { New.queries [(str "b", str "3"), (str "a", str "2")] with
          httpVerb := str "GET", endpoint := str "/test?a=1" } :=
  (composePath_iteration_order Lib.accepting
    { New.queries [(str "b", str "3"), (str "a", str "2")] with
      httpVerb := str "GET", endpoint := str "/test?a=1" }
    [(str "a", [str "2"]), (str "b", [str "3"])] (List.Perm.swap _ _ _) (by decide)).1


/-- C18, refuted as stated: after `Cookie("a", "1")` on a fresh builder, the
first `StdRequest` sends `Cookie: a=1` and leaves `a=1` under `Cookie` in the
headers of the builder, which held nothing there; the second `StdRequest`
sends `Cookie: a=1; a=1`. -/
theorem StdRequest_twice_cookies :
    (Request.StdRequest Lib.accepting
        { New.Cookie (str "a") (str "1") with
          httpVerb := str "GET", endpoint := str "/" }).result.map
          (fun req => req.Header.Get (str "Cookie"))
        = .ok (str "a=1") ∧
      (Request.StdRequest Lib.accepting
        (Request.StdRequest Lib.accepting
          { New.Cookie (str "a") (str "1") with
            httpVerb := str "GET", endpoint := str "/" }).builder).result.map
          (fun req => req.Header.Get (str "Cookie"))
        = .ok (str "a=1; a=1") ∧
      GoMap.get? (New.Cookie (str "a") (str "1")).headers (str "Cookie") = none ∧
      GoMap.get?
          (Request.StdRequest Lib.accepting
            { New.Cookie (str "a") (str "1") with
              httpVerb := str "GET", endpoint := str "/" }).builder.headers (str "Cookie")
        = some [str "a=1"] := by
  decide

/-- C18, amended: on a builder with no cookie configured, a second `StdRequest`
gives the same result as the first (the same request, or the same failure) and
leaves the same builder; and on every builder, the stored headers after
`StdRequest` differ from those before at most under `Content-Length`,
`Content-Type` and `Cookie`. -/
theorem StdRequest_idempotent_no_cookies (lib : Lib) (r : Request) :
    (r.cookies = [] →
      (Request.StdRequest lib (Request.StdRequest lib r).builder).result
          = (Request.StdRequest lib r).result ∧
        (Request.StdRequest lib (Request.StdRequest lib r).builder).builder
          = (Request.StdRequest lib r).builder) ∧
      ∀ k, http.CanonicalHeaderKey HeaderContentLength ≠ k →
        http.CanonicalHeaderKey HeaderContentType ≠ k →
        http.CanonicalHeaderKey (str "Cookie") ≠ k →
        GoMap.get? (Request.StdRequest lib r).builder.headers k
          = GoMap.get? r.headers k := by
  refine ⟨fun hc => ?_, Request.StdRequest_builder_headers lib r⟩
  have hb := Request.StdRequest_builder_no_cookies lib r hc
  have hb' := Request.StdRequest_builder_no_cookies lib
    { r with headers := Request.bodyHeaders r } hc
  rw [hb]
  refine ⟨?_, ?_⟩
  · rw [Request.StdRequest_result, Request.StdRequest_result, Request.composePath_bodyHeaders,
      Request.bodyHeaders_idem]
  · rw [hb', Request.bodyHeaders_idem]

/-- C18 amended, at a concrete input: `Form("q", "1")` on a fresh builder and
two `StdRequest` calls for `Post("/")`. -/
theorem StdRequest_idempotent_no_cookies_witness :
    (Request.StdRequest Lib.accepting
        (Request.StdRequest Lib.accepting
          { (New.Form (str "q") (str "1")).builder with
            httpVerb := str "POST", endpoint := str "/" }).builder).result
      = (Request.StdRequest Lib.accepting
          { (New.Form (str "q") (str "1")).builder with
            httpVerb := str "POST", endpoint := str "/" }).result :=
  ((StdRequest_idempotent_no_cookies Lib.accepting
    { (New.Form (str "q") (str "1")).builder with
      httpVerb := str "POST", endpoint := str "/" }).1 (by decide)).1


/-- C15: after any sequence of `Cookie` calls with valid names and values on a
fresh builder, the request that `StdRequest` returns has as its `Cookie` header
the pairs `name=value` joined by `; `, over a list `sent` that holds exactly
one pair for each distinct name, with the value of the last call for that name
(in the order in which the map hands out its entries); the header holds the
names and values only. -/
theorem Cookie_last_write_wins (lib : Lib)
    (calls : List (GoString × GoString)) (verb endpoint : GoString)
    (hvalid : ∀ c ∈ calls, validCookieName c.1 ∧ validCookieValue c.2) :
    ∃ sent : List (GoString × GoString),
      sent.Perm (lastPairs calls) ∧
        ∀ req,
          (Request.StdRequest lib
            { New.cookieCalls calls with httpVerb := verb, endpoint := endpoint }).result
            = .ok req →
          req.Header.Get (str "Cookie") = joinSemi (sent.map (fun c => c.1 ++ [61] ++ c.2)) := by
  obtain ⟨hck, hhd, hbody⟩ := Request.cookieCalls_fields calls New
  obtain ⟨h1, _, h3⟩ := foldl_set_spec calls
  refine ⟨(New.cookieCalls calls).cookies, ?_, fun req hreq => ?_⟩
  · rw [hck]
    exact foldl_set_perm calls
  · obtain ⟨hh, _, _⟩ := Request.StdRequest_ok lib _ req hreq
    have hbh : Request.bodyHeaders
        { New.cookieCalls calls with httpVerb := verb, endpoint := endpoint } = New.headers := by
      unfold Request.bodyHeaders
      dsimp only
      rw [hbody, hhd]
      rfl
    rw [hh, hbh, Request.Get_addCookies_Cookie]
    have h0 : New.headers.Get (str "Cookie") = [] := by decide
    rw [if_pos h0]
    congr 1
    apply List.map_congr_left
    intro c hc
    dsimp only at hc
    rw [hck] at hc
    have hget := GoMap.get?_of_mem _ c.1 c.2 h1 hc
    rw [h3] at hget
    obtain ⟨hn, hv⟩ := hvalid _ (lastValue_mem calls c.1 c.2 hget)
    rw [http.sanitizeCookieName_valid _ hn, http.sanitizeCookieValue_valid _ hv]

/-- C15, at a concrete input: `Cookie("a", "1")`, `Cookie("b", "2")` and
`Cookie("a", "3")`, then `Get("/")`, send `Cookie: a=3; b=2`. -/
theorem Cookie_last_write_wins_witness :
    (∃ sent : List (GoString × GoString),
      sent.Perm (lastPairs [(str "a", str "1"), (str "b", str "2"), (str "a", str "3")]) ∧
        ∀ req,
          (Request.StdRequest Lib.accepting
            { New.cookieCalls [(str "a", str "1"), (str "b", str "2"), (str "a", str "3")] with
              httpVerb := str "GET", endpoint := str "/" }).result = .ok req →
          req.Header.Get (str "Cookie")
            = joinSemi (sent.map (fun c => c.1 ++ [61] ++ c.2))) ∧
      (Request.StdRequest Lib.accepting
        { New.cookieCalls [(str "a", str "1"), (str "b", str "2"), (str "a", str "3")] with
          httpVerb := str "GET", endpoint := str "/" }).result.map
          (fun req => req.Header.Get (str "Cookie"))
        = .ok (str "a=3; b=2") :=
  ⟨Cookie_last_write_wins Lib.accepting
      [(str "a", str "1"), (str "b", str "2"), (str "a", str "3")] (str "GET") (str "/")
      (by decide),
    by decide⟩


/-- C1, amended: for every path that starts with `/`, holds no space and no
control byte, has no percent-escape before its first `?`, and has a well-formed
query, and for every sequence of `Query` calls on a fresh builder sent with a
verb that is a token, `StdRequest` returns a request, and the pairs in the
query string of its target are, as a multiset, the pairs of the query of the
path together with one pair for each distinct key passed to `Query`, holding
the value of the last call for that key. -/
theorem Query_pairs (lib : Lib) (endpoint verb : GoString)
    (calls : List (GoString × GoString)) (hplain : plainPath endpoint)
    (h32 : (32 : Byte) ∉ endpoint) (hq : (ParseQuery (Cut 63 endpoint).2.1).2 = none)
    (hverb : http.validMethod (if verb = [] then str "GET" else verb) = true) :
    ∃ req,
      (Request.StdRequest lib
        { New.queries calls with httpVerb := verb, endpoint := endpoint }).result = .ok req ∧
      (queryPairs req.RequestURI).Perm (queryPairs endpoint ++ lastPairs calls) := by
  obtain ⟨u, hu, hpath, hraw⟩ := url.ParseRequestURI_plain lib endpoint hplain
  have hq' : ParseQuery u.RawQuery = ((ParseQuery (Cut 63 endpoint).2.1).1, none) := by
    rw [hraw, ← hq]
  have hc := Request.composePath_queries lib endpoint verb u _ calls hu hq'
  by_cases hcalls : calls = []
  · rw [if_pos hcalls] at hc
    obtain ⟨req, hreq, huri⟩ := Request.StdRequest_plain lib _ endpoint hc hplain
      (plainPath_bytes endpoint hplain h32) hverb
    refine ⟨req, hreq, ?_⟩
    rw [huri, hcalls]
    simp [lastPairs, distinctKeys]
  · rw [if_neg hcalls, hpath] at hc
    obtain ⟨ht1, ht2, ht3⟩ := plainPath_target endpoint _ hplain
      (url.Values.Encode_plain
        (Request.addQuery (New.queries calls).urlQuery (ParseQuery (Cut 63 endpoint).2.1).1))
    obtain ⟨req, hreq, huri⟩ := Request.StdRequest_plain lib _ _ hc ht1 ht2 hverb
    refine ⟨req, hreq, ?_⟩
    rw [huri]
    unfold queryPairs
    rw [ht3]
    exact Request.pairs_merged _ calls (url.ParseQuery_nodup _)

/-- C1 amended, at a concrete input: the path `/test?a=1` with `Query("a",
"2")`, `Query("b", "3")` and `Query("b", "4")`, sent with `GET`. -/
theorem Query_pairs_witness :
    (∃ req,
      (Request.StdRequest Lib.accepting
        { New.queries [(str "a", str "2"), (str "b", str "3"), (str "b", str "4")] with
          httpVerb := str "GET", endpoint := str "/test?a=1" }).result = .ok req ∧
      (queryPairs req.RequestURI).Perm
        (queryPairs (str "/test?a=1")
          ++ lastPairs [(str "a", str "2"), (str "b", str "3"), (str "b", str "4")])) ∧
      (Request.StdRequest Lib.accepting
        { New.queries [(str "a", str "2"), (str "b", str "3"), (str "b", str "4")] with
          httpVerb := str "GET", endpoint := str "/test?a=1" }).result.map
          (fun req => req.RequestURI)
        = .ok (str "/test?a=1&a=2&b=4") :=
  ⟨Query_pairs Lib.accepting (str "/test?a=1") (str "GET")
      [(str "a", str "2"), (str "b", str "3"), (str "b", str "4")] (by decide) (by decide)
      (by decide) (by decide),
    by decide⟩

/-- C2, amended: for every path `P?Q0` that starts with `/`, holds no control
byte, has no space and no percent-escape in `P`, and has a well-formed query
`Q0`, and for explicit query parameters, not empty, with distinct keys, sent
with a verb that is a token, `StdRequest` returns a request, and the query
string of its target is the percent-encoding of the combined pairs with the
keys in ascending order and, for each key, the values from the path in their
order followed by the explicit value. -/
theorem StdRequest_mergedQuery (lib : Lib) (endpoint verb : GoString)
    (explicit : List (GoString × GoString)) (hplain : plainPath endpoint)
    (hq : (ParseQuery (Cut 63 endpoint).2.1).2 = none) (hne : explicit ≠ [])
    (hkeys : (explicit.map Prod.fst).Nodup)
    (hverb : http.validMethod (if verb = [] then str "GET" else verb) = true) :
    ∃ req,
      (Request.StdRequest lib
        { New.queries explicit with httpVerb := verb, endpoint := endpoint }).result = .ok req ∧
      (Cut 63 req.RequestURI).2.1
        = mergedQuery (ParseQuery (Cut 63 endpoint).2.1).1 explicit := by
  obtain ⟨u, hu, hpath, hraw⟩ := url.ParseRequestURI_plain lib endpoint hplain
  have hq' : ParseQuery u.RawQuery = ((ParseQuery (Cut 63 endpoint).2.1).1, none) := by
    rw [hraw, ← hq]
  have hc := Request.composePath_queries lib endpoint verb u _ explicit hu hq'
  have huq : (New.queries explicit).urlQuery = explicit.map (fun c => (c.1, [c.2])) := by
    rw [Request.queries_urlQuery]
    exact foldl_Set_of_nodup explicit hkeys
  rw [if_neg hne, hpath, huq, Request.addQuery_singletons,
    Encode_foldl_Add _ explicit (url.ParseQuery_nodup _)] at hc
  obtain ⟨ht1, ht2, ht3⟩ := plainPath_target endpoint
    (mergedQuery (ParseQuery (Cut 63 endpoint).2.1).1 explicit) hplain
    (by
      rw [← Encode_foldl_Add _ explicit (url.ParseQuery_nodup _)]
      exact url.Values.Encode_plain _)
  obtain ⟨req, hreq, huri⟩ := Request.StdRequest_plain lib _ _ hc ht1 ht2 hverb
  exact ⟨req, hreq, by rw [huri, ht3]⟩

/-- C2 amended, at the input of the test: the path `/test?a=1` with
`Query("a", "2")` and `Query("b", "3")`, sent with `GET`, has the query string
`a=1&a=2&b=3`. -/
theorem StdRequest_mergedQuery_witness :
    (∃ req,
      (Request.StdRequest Lib.accepting
        { New.queries [(str "a", str "2"), (str "b", str "3")] with
          httpVerb := str "GET", endpoint := str "/test?a=1" }).result = .ok req ∧
      (Cut 63 req.RequestURI).2.1
        = mergedQuery (ParseQuery (Cut 63 (str "/test?a=1")).2.1).1
            [(str "a", str "2"), (str "b", str "3")]) ∧
      mergedQuery (ParseQuery (Cut 63 (str "/test?a=1")).2.1).1
          [(str "a", str "2"), (str "b", str "3")] = str "a=1&a=2&b=3" :=
  ⟨StdRequest_mergedQuery Lib.accepting (str "/test?a=1") (str "GET")
      [(str "a", str "2"), (str "b", str "3")] (by decide) (by decide) (by decide) (by decide)
      (by decide),
    by decide⟩

/-- C12: with no explicit query parameter the composed target is the supplied
path, whatever the path is: the path is not parsed and the composer does not
fail, also on a path that `url.ParseRequestURI` rejects. When neither the verb
nor the path holds a space or a line feed, a request that `StdRequest` returns
has the supplied path as its request URI. -/
theorem composePath_no_query (lib : Lib) (r : Request) (h : r.urlQuery = []) :
    Request.composePath lib r = .ok r.endpoint ∧
      ∀ req, (Request.StdRequest lib r).result = .ok req →
        (∀ b ∈ r.httpVerb, b ≠ 32 ∧ b ≠ 10) → (∀ b ∈ r.endpoint, b ≠ 32 ∧ b ≠ 10) →
        req.RequestURI = r.endpoint := by
  have hc : Request.composePath lib r = .ok r.endpoint := by
    unfold Request.composePath
    simp [h]
  exact ⟨hc, fun req hr hm hb => Request.StdRequest_RequestURI lib r _ req hc hm hb hr⟩

/-- C12, at a concrete input: the path `a%zz?x=%zz`, which the parser rejects,
is composed unchanged. -/
theorem composePath_no_query_witness :
    ParseRequestURI Lib.accepting (str "a%zz?x=%zz") = .error .invalidURIForRequest ∧
      Request.composePath Lib.accepting
        { New with httpVerb := str "GET", endpoint := str "a%zz?x=%zz" }
        = .ok (str "a%zz?x=%zz") :=
  ⟨by decide,
    (composePath_no_query Lib.accepting
      { New with httpVerb := str "GET", endpoint := str "a%zz?x=%zz" } rfl).1⟩

end Htest
